import Mathlib

/-!
# Verification of the confluence-reader diff engine and tree fetcher

Shallow embedding of the core logic of the repository:

* `src/compare/diff.ts` — line-based LCS diff: `longestCommonSubsequence`,
  `buildDiff`, `formatUnifiedDiff`, `generateUnifiedDiff`, `generateDiffStats`.
* `src/confluence/client.ts` — `fetchPageTree` (recursive tree assembly with
  per-child failure stubbing) and `parallelMap` (bounded worker pool).
* `src/confluence/url.ts` — `extractConfluencePageId`.

JavaScript strings are embedded as `String`, arrays as `List`, numbers used as
indices/counters as `Nat` (all relevant quantities are non-negative), and
exceptions as `Except String`.  The network layer (`fetch`) is modelled as a
`ContentSource` oracle supplying the page for an id and the ordered child
listing, matching the collaborator contract the tree fetcher is written
against.  The cooperative concurrency of `parallelMap` is modelled as a small
step-transition system over pool states, quantifying over all interleavings.
-/

namespace ConfluenceReader

/-! ## Diff engine data model (src/compare/diff.ts, lines 6-11) -/

/-- The tag of a `DiffLine`: `'context' | 'add' | 'remove'`. -/
inductive DiffType where
  | context : DiffType
  | add : DiffType
  | remove : DiffType
deriving DecidableEq, Repr

/-- `DiffLine` from diff.ts: a tagged line with optional 1-based
old/new line numbers. -/
structure DiffLine where
  type : DiffType
  line : String
  oldLineNum : Option Nat
  newLineNum : Option Nat
deriving DecidableEq, Repr

instance : Inhabited DiffLine := ⟨⟨DiffType.context, "", none, none⟩⟩

/-- Splitting a JS string on `'\n'` (`text.split('\n')`): accumulate
characters until a newline, emitting one (possibly empty) piece per
separator.  Always returns at least one element, like the JS original. -/
def splitLinesAux : List Char → List Char → List String
  | [], acc => [String.mk acc.reverse]
  | c :: cs, acc =>
      if c = '\n' then String.mk acc.reverse :: splitLinesAux cs []
      else splitLinesAux cs (c :: acc)

/-- `text.split('\n')` from diff.ts lines 134-135. -/
def splitLines (s : String) : List String :=
  splitLinesAux s.toList []

/-- One row of the LCS dynamic-programming table: given row `i` of the
table (`prev`), `lcsRow a b prev i j` is `dp[i+1][j]` — `0` at `j = 0`,
and for `j+1` the recurrence of diff.ts lines 20-24. -/
def lcsRow (a b : List String) (prev : Nat → Nat) (i : Nat) : Nat → Nat
  | 0 => 0
  | j + 1 =>
      if a.getD i "" = b.getD j "" then prev j + 1
      else max (prev (j + 1)) (lcsRow a b prev i j)

/-- The LCS dynamic-programming table of `longestCommonSubsequence`
(diff.ts lines 13-29), built row by row exactly as the nested `for` loops
do: `lcsTable a b i j` is `dp[i][j]`, the LCS length of the first `i` lines
of `a` and the first `j` lines of `b`. -/
def lcsTable (a b : List String) : Nat → Nat → Nat
  | 0 => fun _ => 0
  | i + 1 => lcsRow a b (lcsTable a b i) i

/-- Sanity check: the row-by-row table satisfies the recurrence of
diff.ts lines 20-24 literally. -/
theorem lcsTable_succ_succ (a b : List String) (i j : Nat) :
    lcsTable a b (i + 1) (j + 1) =
      if a.getD i "" = b.getD j "" then lcsTable a b i j + 1
      else max (lcsTable a b i (j + 1)) (lcsTable a b (i + 1) j) := rfl

/-- The backwards walk of `buildDiff` (diff.ts lines 31-51).  The JS loop
runs indices `(i, j)` from `(a.length, b.length)` down to `(0, 0)` and
`unshift`s each emitted line, so the recursive translation appends the line
emitted at `(i, j)` after the diff of the smaller prefixes.  `fuel` is an
upper bound on the number of remaining loop iterations (any `fuel ≥ i + j`
gives the loop's value, see `buildDiffAux_congr`); it makes the recursion
structural so that the function evaluates by reduction. -/
def buildDiffAux (a b : List String) : Nat → Nat → Nat → List DiffLine
  | 0, _, _ => []
  | fuel + 1, i, j =>
      if i = 0 ∧ j = 0 then []
      else if 0 < i ∧ 0 < j ∧ a.getD (i - 1) "" = b.getD (j - 1) "" then
        buildDiffAux a b fuel (i - 1) (j - 1) ++
          [⟨DiffType.context, a.getD (i - 1) "", some i, some j⟩]
      else if 0 < j ∧ (i = 0 ∨ lcsTable a b (i - 1) j ≤ lcsTable a b i (j - 1)) then
        buildDiffAux a b fuel i (j - 1) ++
          [⟨DiffType.add, b.getD (j - 1) "", none, some j⟩]
      else
        buildDiffAux a b fuel (i - 1) j ++
          [⟨DiffType.remove, a.getD (i - 1) "", some i, none⟩]

/-- `buildDiff(a, b, dp)` at the full lengths (diff.ts line 138). -/
def buildDiff (a b : List String) : List DiffLine :=
  buildDiffAux a b (a.length + b.length) a.length b.length

/-- Any fuel bounding `i + j` computes the value of the `while` loop: the
fuel is semantically irrelevant. -/
theorem buildDiffAux_congr (a b : List String) :
    ∀ n m i j, i + j ≤ n → i + j ≤ m →
      buildDiffAux a b n i j = buildDiffAux a b m i j := by
  intro n
  induction n with
  | zero =>
      intro m i j hn _
      have hi : i = 0 := by omega
      have hj : j = 0 := by omega
      subst hi; subst hj
      cases m with
      | zero => rfl
      | succ m => simp [buildDiffAux]
  | succ n ih =>
      intro m i j hn hm
      cases m with
      | zero =>
          have hi : i = 0 := by omega
          have hj : j = 0 := by omega
          subst hi; subst hj
          simp [buildDiffAux]
      | succ m =>
          show buildDiffAux a b (n + 1) i j = buildDiffAux a b (m + 1) i j
          rw [buildDiffAux, buildDiffAux]
          by_cases h0 : i = 0 ∧ j = 0
          · rw [if_pos h0, if_pos h0]
          · rw [if_neg h0, if_neg h0]
            by_cases hc : 0 < i ∧ 0 < j ∧ a.getD (i - 1) "" = b.getD (j - 1) ""
            · rw [if_pos hc, if_pos hc, ih m (i - 1) (j - 1) (by omega) (by omega)]
            · rw [if_neg hc, if_neg hc]
              by_cases hadd : 0 < j ∧ (i = 0 ∨ lcsTable a b (i - 1) j ≤ lcsTable a b i (j - 1))
              · rw [if_pos hadd, if_pos hadd, ih m i (j - 1) (by omega) (by omega)]
              · rw [if_neg hadd, if_neg hadd]
                have hi : 0 < i := by
                  rcases Nat.eq_zero_or_pos i with hz | hp
                  · exact absurd ⟨by omega, Or.inl hz⟩ hadd
                  · exact hp
                rw [ih m (i - 1) j (by omega) (by omega)]

/-- Loop exit: at `(0, 0)` the walk emits nothing. -/
theorem buildDiffAux_zero (a b : List String) (n : Nat) :
    buildDiffAux a b n 0 0 = [] := by
  cases n <;> simp [buildDiffAux]

/-- Matching lines (diff.ts lines 37-40): emit a context line and step both
indices back. -/
theorem buildDiffAux_context (a b : List String) {n i j : Nat}
    (hn : i + j ≤ n) (hi : 0 < i) (hj : 0 < j)
    (hab : a.getD (i - 1) "" = b.getD (j - 1) "") :
    buildDiffAux a b n i j =
      buildDiffAux a b n (i - 1) (j - 1) ++
        [⟨DiffType.context, a.getD (i - 1) "", some i, some j⟩] := by
  obtain ⟨m, rfl⟩ : ∃ m, n = m + 1 := ⟨n - 1, by omega⟩
  rw [buildDiffAux, if_neg (by omega), if_pos ⟨hi, hj, hab⟩,
    buildDiffAux_congr a b m (m + 1) (i - 1) (j - 1) (by omega) (by omega)]

/-- The addition branch (diff.ts lines 41-43): taken when the lines do not
match, `j > 0`, and `i = 0` or `dp[i][j-1] >= dp[i-1][j]`. -/
theorem buildDiffAux_add (a b : List String) {n i j : Nat}
    (hn : i + j ≤ n) (hj : 0 < j)
    (hab : ¬ (0 < i ∧ 0 < j ∧ a.getD (i - 1) "" = b.getD (j - 1) ""))
    (hd : i = 0 ∨ lcsTable a b (i - 1) j ≤ lcsTable a b i (j - 1)) :
    buildDiffAux a b n i j =
      buildDiffAux a b n i (j - 1) ++
        [⟨DiffType.add, b.getD (j - 1) "", none, some j⟩] := by
  obtain ⟨m, rfl⟩ : ∃ m, n = m + 1 := ⟨n - 1, by omega⟩
  rw [buildDiffAux, if_neg (by omega), if_neg hab, if_pos ⟨hj, hd⟩,
    buildDiffAux_congr a b m (m + 1) i (j - 1) (by omega) (by omega)]

/-- The removal branch (diff.ts lines 44-47): taken when neither the match
nor the addition branch applies (which forces `i > 0`). -/
theorem buildDiffAux_remove (a b : List String) {n i j : Nat}
    (hn : i + j ≤ n) (hi : 0 < i)
    (hab : ¬ (0 < i ∧ 0 < j ∧ a.getD (i - 1) "" = b.getD (j - 1) ""))
    (hd : ¬ (0 < j ∧ (i = 0 ∨ lcsTable a b (i - 1) j ≤ lcsTable a b i (j - 1)))) :
    buildDiffAux a b n i j =
      buildDiffAux a b n (i - 1) j ++
        [⟨DiffType.remove, a.getD (i - 1) "", some i, none⟩] := by
  obtain ⟨m, rfl⟩ : ∃ m, n = m + 1 := ⟨n - 1, by omega⟩
  rw [buildDiffAux, if_neg (by omega), if_neg hab, if_neg hd,
    buildDiffAux_congr a b m (m + 1) (i - 1) j (by omega) (by omega)]

/-- The statistics record returned by `generateDiffStats`
(diff.ts lines 143-162). -/
structure DiffStats where
  additions : Nat
  deletions : Nat
  changes : Nat
deriving DecidableEq, Repr

/-- `generateDiffStats` (diff.ts lines 143-162). -/
def generateDiffStats (oldText newText : String) : DiffStats :=
  let diffLines := buildDiff (splitLines oldText) (splitLines newText)
  let additions := (diffLines.filter (fun l => decide (l.type = DiffType.add))).length
  let deletions := (diffLines.filter (fun l => decide (l.type = DiffType.remove))).length
  ⟨additions, deletions, additions + deletions⟩

/-! ## Hunk grouping (formatUnifiedDiff, diff.ts lines 67-96)

The JS loop keeps three mutable variables: the list of finished hunks, the
hunk under construction, and `lastChangeIndex` (`-1` when no change is
pending, modelled as `Option Nat`).  `currentHunk.includes(l)` compares the
`DiffLine` objects; inside one diff run all emitted `DiffLine` values are
pairwise distinct (each carries its own line numbers), so value equality is
the faithful translation. -/

/-- The mutable state of the grouping loop. -/
structure GroupState where
  hunks : List (List DiffLine)
  cur : List DiffLine
  last : Option Nat
deriving DecidableEq, Repr

/-- One iteration of the `diffLines.forEach((line, idx) => ...)` body
(diff.ts lines 72-92). -/
def groupStep (dl : List DiffLine) (ctx : Nat) (s : GroupState)
    (idx : Nat) (line : DiffLine) : GroupState :=
  if line.type ≠ DiffType.context then
    -- `const start = Math.max(0, lastChangeIndex + 1, idx - contextLines)`
    let start := max (match s.last with | none => 0 | some l => l + 1) (idx - ctx)
    -- `diffLines.slice(start, idx).filter(l => !currentHunk.includes(l))`
    let contextBefore := ((dl.take idx).drop start).filter (fun l => decide (l ∉ s.cur))
    ⟨s.hunks, s.cur ++ contextBefore ++ [line], some idx⟩
  else
    match s.last with
    | some l =>
        if idx - l ≤ ctx then
          ⟨s.hunks, s.cur ++ [line], s.last⟩
        else
          ⟨(if s.cur = [] then s.hunks else s.hunks ++ [s.cur]), [], none⟩
    | none => s

/-- The `forEach` loop: process the lines of `rest` (which is `dl.drop idx`
when called from `groupHunks`), threading the state. -/
def groupAux (dl : List DiffLine) (ctx : Nat) : List DiffLine → Nat → GroupState → GroupState
  | [], _, s => s
  | line :: rest, idx, s => groupAux dl ctx rest (idx + 1) (groupStep dl ctx s idx line)

/-- The full grouping pass of `formatUnifiedDiff` (diff.ts lines 68-96),
including the final `if (currentHunk.length > 0) hunks.push(currentHunk)`. -/
def groupHunks (dl : List DiffLine) (ctx : Nat) : List (List DiffLine) :=
  let s := groupAux dl ctx dl 0 ⟨[], [], none⟩
  s.hunks ++ (if s.cur = [] then [] else [s.cur])

/-- JS `x || 1` on an optional line number (diff.ts lines 103-104):
`undefined` and `0` are falsy. -/
def jsOr1 : Option Nat → Nat
  | some k => if k = 0 then 1 else k
  | none => 1

/-- Rendering of one hunk (diff.ts lines 99-123): the `@@` header followed
by one prefixed line per `DiffLine`.  (`lastLine` in the JS source is
computed but never used.) -/
def formatHunk (hunk : List DiffLine) : List String :=
  let firstLine := hunk.getD 0 default
  let oldStart := jsOr1 firstLine.oldLineNum
  let newStart := jsOr1 firstLine.newLineNum
  let oldCount := (hunk.filter (fun l => decide (l.type ≠ DiffType.add))).length
  let newCount := (hunk.filter (fun l => decide (l.type ≠ DiffType.remove))).length
  ("@@ -" ++ toString oldStart ++ "," ++ toString oldCount ++ " +" ++
      toString newStart ++ "," ++ toString newCount ++ " @@") ::
    hunk.map (fun line =>
      match line.type with
      | DiffType.context => " " ++ line.line
      | DiffType.add => "+" ++ line.line
      | DiffType.remove => "-" ++ line.line)

/-- `formatUnifiedDiff` (diff.ts lines 53-126).  `contextLines` defaults to
3 at the call site in `generateUnifiedDiff`. -/
def formatUnifiedDiff (oldLabel newLabel : String) (diffLines : List DiffLine)
    (contextLines : Nat) : String :=
  if diffLines.length = 0 then
    "--- " ++ oldLabel ++ "\n+++ " ++ newLabel ++ "\n(no differences)\n"
  else
    let hunks := groupHunks diffLines contextLines
    String.intercalate "\n"
      (("--- " ++ oldLabel) :: ("+++ " ++ newLabel) :: (hunks.map formatHunk).flatten)

/-- `generateUnifiedDiff` (diff.ts lines 128-141); the labels default to
`a/original` / `b/modified` in the source. -/
def generateUnifiedDiff (oldText newText oldLabel newLabel : String) : String :=
  let oldLines := splitLines oldText
  let newLines := splitLines newText
  let diffLines := buildDiff oldLines newLines
  formatUnifiedDiff oldLabel newLabel diffLines 3

/-! ## URL page-id extraction (src/confluence/url.ts)

`extractConfluencePageId` first parses the URL (`new URL(url)`); a parse
failure throws immediately.  We embed the function over the parsed parts:
the `pageId` query parameter (`u.searchParams.get("pageId")`, `none` for JS
`null`) and the `pathname`.  The regexes are hand-compiled:
`/^\d+$/.test(s)` is "non-empty and all decimal digits", and
`/\/pages\/(\d+)(\/|$)/` matches, at the first possible position, the
literal `/pages/` followed by a maximal non-empty digit run that is
followed by `/` or the end of the string. -/

/-- The components of a successfully parsed URL that
`extractConfluencePageId` inspects. -/
structure URLParts where
  pageIdParam : Option String
  pathname : String

/-- `/^\d+$/.test(s)`: non-empty, decimal digits only. -/
def isNumericStr (s : String) : Bool :=
  !s.isEmpty && s.toList.all (fun c => c.isDigit)

/-- Take the maximal leading digit run: returns (digits, rest). -/
def digitSpan : List Char → List Char × List Char
  | [] => ([], [])
  | c :: cs =>
      if c.isDigit then
        let p := digitSpan cs
        (c :: p.1, p.2)
      else ([], c :: cs)

/-- Try to match `\/pages\/(\d+)(\/|$)` at the head of `cs`; on success
return the captured digit run. -/
def matchPagesHere (cs : List Char) : Option (List Char) :=
  if cs.take 7 = "/pages/".toList then
    let p := digitSpan (cs.drop 7)
    if p.1 ≠ [] ∧ (p.2 = [] ∨ p.2.headD ' ' = '/') then some p.1 else none
  else none

/-- Scan left to right for the first match of `\/pages\/(\d+)(\/|$)`,
like `String.prototype.match` with a non-anchored regex. -/
def findPagesId : List Char → Option (List Char)
  | [] => none
  | c :: cs =>
      match matchPagesHere (c :: cs) with
      | some d => some d
      | none => findPagesId cs

/-- The pathname fallback of `extractConfluencePageId` (url.ts lines
26-29): `u.pathname.match(/\/pages\/(\d+)(\/|$)/)`, returning the capture
on success; on failure the inner `throw` is caught by the function's own
`catch` and re-wrapped with the `Invalid URL: ` message. -/
def pagesPathId (pathname : String) : Except String String :=
  match findPagesId pathname.toList with
  | some d => Except.ok (String.mk d)
  | none =>
      Except.error
        "Invalid URL: Unsupported Confluence URL format (no pageId found)."

/-- `extractConfluencePageId` (url.ts lines 12-33) over the parsed URL. -/
def extractConfluencePageId (u : URLParts) : Except String String :=
  match u.pageIdParam with
  | some pid =>
      -- `if (pageId && /^\d+$/.test(pageId)) return pageId;`
      if !pid.isEmpty && isNumericStr pid then Except.ok pid else pagesPathId u.pathname
  | none => pagesPathId u.pathname

/-! ## Tree fetcher (src/confluence/client.ts, `fetchPageTree`)

`fetchPageTree` talks to the Confluence API through `fetchPageById` (page
content, converted to text by `storageToText`) and `fetchChildPages` (the
fully drained, ordered child listing).  Both are pure I/O adapters, so they
are modelled as a `ContentSource` oracle: `fetchPage id` yields the page
(its `content` field is the already-converted text of the page body) or the
error the HTTP layer would throw; `listChildren id` yields the ordered
child list of the drained pagination or its error.  The bounded-concurrency
`parallelMap` fan-out is modelled denotationally by `List.map`; theorem
`parallelMap_results_eq_map` below proves that every interleaving of the
worker pool computes exactly that map, which justifies the denotation. -/

/-- A fetched page: id, title, and the text content derived from its
storage body (client.ts lines 146-148). -/
structure Page where
  id : String
  title : String
  content : String
deriving DecidableEq, Repr

/-- One entry of the drained child listing (id and title are all
`fetchPageTree` reads from it). -/
structure ChildRef where
  id : String
  title : String
deriving DecidableEq, Repr

/-- The remote content source: `fetchPageById` + `storageToText` composed,
and `fetchChildPages`, as oracles. -/
structure ContentSource where
  fetchPage : String → Except String Page
  listChildren : String → Except String (List ChildRef)

/-- The recursive page tree (client.ts lines 112-117). -/
inductive PageNode where
  | mk : String → String → String → List PageNode → PageNode
deriving Repr

/-- The `id` field of a `PageNode`. -/
def PageNode.id : PageNode → String
  | PageNode.mk i _ _ _ => i

/-- The `title` field of a `PageNode`. -/
def PageNode.title : PageNode → String
  | PageNode.mk _ t _ _ => t

/-- The `content` field of a `PageNode`. -/
def PageNode.content : PageNode → String
  | PageNode.mk _ _ c _ => c

/-- The `children` field of a `PageNode`. -/
def PageNode.children : PageNode → List PageNode
  | PageNode.mk _ _ _ cs => cs

/-- The stub substituted for a child whose recursive fetch failed
(client.ts lines 157-162).  `child.title ?? `Page ${child.id}`` never takes
the fallback because the API response type declares `title` as a required
string; the stub therefore carries the child's own title. -/
def stubNode (child : ChildRef) (msg : String) : PageNode :=
  PageNode.mk child.id child.title ("[Error fetching page: " ++ msg ++ "]") []

/-- `fetchPageTree` (client.ts lines 138-169).  The depth argument is
recursed on structurally, so it comes before the page id.  At depth `d+1`
the child listing is drained and each child is fetched recursively at depth
`d`, a failed child being replaced by its stub at that child's call site;
at depth `0` no children are fetched.  The `parallelMap` fan-out is modelled
by `List.map` (see `parallelMap_results_eq_map` for the justification). -/
def fetchPageTree (src : ContentSource) : Nat → String → Except String PageNode
  | 0, pageId => do
      let page ← src.fetchPage pageId
      pure (PageNode.mk page.id page.title page.content [])
  | d + 1, pageId => do
      let page ← src.fetchPage pageId
      let childPages ← src.listChildren pageId
      let children := childPages.map (fun child =>
        match fetchPageTree src d child.id with
        | Except.ok node => node
        | Except.error e => stubNode child e)
      pure (PageNode.mk page.id page.title page.content children)

mutual

/-- Height of a page tree: a leaf has height `0`. -/
def treeHeight : PageNode → Nat
  | PageNode.mk _ _ _ cs => heightList cs

/-- Height helper over child lists: one more than the tallest child. -/
def heightList : List PageNode → Nat
  | [] => 0
  | c :: cs => max (treeHeight c + 1) (heightList cs)

end

/-! ## Worker pool (src/confluence/client.ts, `parallelMap`, lines 174-192)

`parallelMap` spawns `min(limit, items.length)` copies of `worker`; each
worker repeatedly claims the next index (`const i = idx++`, atomic between
`await` suspension points under JS's single-threaded event loop), computes
`await fn(items[i])`, writes the result into its own slot, and returns when
`idx` reaches the end.  We model this as a labelled transition system over
pool states and quantify over every interleaving of the workers. -/

/-- What one worker of `parallelMap` is doing: waiting to claim the next
index, awaiting `fn` on a claimed item, or returned. -/
inductive WStatus (α : Type) where
  | idle : WStatus α
  | running : Nat → α → WStatus α
  | finished : WStatus α
deriving DecidableEq, Repr

/-- The shared state of one `parallelMap` call: the claim counter `idx`,
the pre-allocated `results` array (a slot is `none` until written), and
the worker statuses. -/
structure PoolState (α β : Type) where
  nextIdx : Nat
  results : List (Option β)
  workers : List (WStatus α)
deriving DecidableEq, Repr

/-- The state at the moment the workers are spawned:
`results = new Array(items.length)`, all of the
`Math.min(limit, items.length)` workers about to enter their loop. -/
def initPool (α β : Type) (n limit : Nat) : PoolState α β :=
  ⟨0, List.replicate n none, List.replicate (min limit n) WStatus.idle⟩

/-- One scheduler step of the pool: some worker either claims the next
index (`const i = idx++` together with reading `items[i]`), resolves its
pending `fn` call and writes its slot, or observes `idx ≥ items.length`
and returns. -/
inductive PoolStep (items : List α) (fn : α → β) : PoolState α β → PoolState α β → Prop where
  | claim (s : PoolState α β) (w : Nat) (x : α)
      (hw : s.workers.get? w = some WStatus.idle)
      (hx : items.get? s.nextIdx = some x) :
      PoolStep items fn s
        ⟨s.nextIdx + 1, s.results, s.workers.set w (WStatus.running s.nextIdx x)⟩
  | retire (s : PoolState α β) (w : Nat)
      (hw : s.workers.get? w = some WStatus.idle)
      (h : items.length ≤ s.nextIdx) :
      PoolStep items fn s ⟨s.nextIdx, s.results, s.workers.set w WStatus.finished⟩
  | write (s : PoolState α β) (w i : Nat) (x : α)
      (hw : s.workers.get? w = some (WStatus.running i x)) :
      PoolStep items fn s
        ⟨s.nextIdx, s.results.set i (some (fn x)), s.workers.set w WStatus.idle⟩

/-- A pool state reachable from the spawn state by some interleaving. -/
def PoolReachable (items : List α) (fn : α → β) (limit : Nat) (s : PoolState α β) : Prop :=
  Relation.ReflTransGen (PoolStep items fn) (initPool α β items.length limit) s

/-- `Promise.all(workers)` has resolved: every worker has returned. -/
def PoolDone (s : PoolState α β) : Prop :=
  ∀ w ∈ s.workers, w = WStatus.finished

/-- Number of workers currently awaiting an `fn` call (claimed fetches in
flight). -/
def runningCount (s : PoolState α β) : Nat :=
  s.workers.countP (fun w => match w with | WStatus.running _ _ => true | _ => false)

/-! Small `List.set`/`List.get?`/`List.getD` facts used by the pool
invariant. -/

theorem list_getD_set_self {α : Type} (l : List α) (i : Nat) (a d : α) (h : i < l.length) :
    (l.set i a).getD i d = a := by
  induction l generalizing i with
  | nil => simp at h
  | cons x xs ih =>
      cases i with
      | zero => rfl
      | succ i => simpa using ih i (by simpa using h)

theorem list_getD_set_ne {α : Type} (l : List α) {i j : Nat} (a d : α) (h : i ≠ j) :
    (l.set i a).getD j d = l.getD j d := by
  induction l generalizing i j with
  | nil => rfl
  | cons x xs ih =>
      cases i with
      | zero =>
          cases j with
          | zero => exact absurd rfl h
          | succ j => rfl
      | succ i =>
          cases j with
          | zero => rfl
          | succ j =>
              have hij : i ≠ j := fun hc => h (by omega)
              simpa using ih hij

theorem list_get?_set_self {α : Type} (l : List α) (i : Nat) (a : α) (h : i < l.length) :
    (l.set i a).get? i = some a := by
  induction l generalizing i with
  | nil => simp at h
  | cons x xs ih =>
      cases i with
      | zero => rfl
      | succ i => simpa using ih i (by simpa using h)

theorem list_get?_set_ne {α : Type} (l : List α) {i j : Nat} (a : α) (h : i ≠ j) :
    (l.set i a).get? j = l.get? j := by
  induction l generalizing i j with
  | nil => rfl
  | cons x xs ih =>
      cases i with
      | zero =>
          cases j with
          | zero => exact absurd rfl h
          | succ j => rfl
      | succ i =>
          cases j with
          | zero => rfl
          | succ j =>
              have hij : i ≠ j := fun hc => h (by omega)
              simpa using ih hij

theorem list_get?_replicate {α : Type} (n i : Nat) (a b : α)
    (h : (List.replicate n a).get? i = some b) : b = a := by
  induction n generalizing i with
  | zero => simp [List.replicate] at h
  | succ n ih =>
      cases i with
      | zero =>
          rw [List.replicate] at h
          injection h with h
          exact h.symm
      | succ i =>
          rw [List.replicate] at h
          exact ih i h

theorem list_getD_replicate_none {β : Type} (n i : Nat) :
    (List.replicate n (none : Option β)).getD i none = none := by
  induction n generalizing i with
  | zero => rfl
  | succ n ih =>
      cases i with
      | zero => rfl
      | succ i => exact ih i

/-- The invariant every reachable pool state satisfies: the claim counter
never passes the end; an unclaimed slot is empty; a worker awaiting `fn` on
index `i` claimed it below the counter, holds the `i`-th item, and its slot
is still empty; each claimed index is either being computed by a (unique)
worker or already holds `fn` of its item; and a worker only returns once
the counter has reached the end. -/
structure PoolInv (items : List α) (fn : α → β) (limit : Nat) (s : PoolState α β) : Prop where
  results_len : s.results.length = items.length
  workers_len : s.workers.length = min limit items.length
  next_le : s.nextIdx ≤ items.length
  unclaimed : ∀ i, s.nextIdx ≤ i → s.results.getD i none = none
  running_inv : ∀ w i x, s.workers.get? w = some (WStatus.running i x) →
    i < s.nextIdx ∧ items.get? i = some x ∧ s.results.getD i none = none
  claimed : ∀ i, i < s.nextIdx →
    (∃ w x, s.workers.get? w = some (WStatus.running i x)) ∨
    (∃ x, items.get? i = some x ∧ s.results.getD i none = some (fn x))
  running_uniq : ∀ w w' i x x', s.workers.get? w = some (WStatus.running i x) →
    s.workers.get? w' = some (WStatus.running i x') → w = w'
  finished_inv : ∀ w, s.workers.get? w = some WStatus.finished → s.nextIdx = items.length

theorem poolInv_init (items : List α) (fn : α → β) (limit : Nat) :
    PoolInv items fn limit (initPool α β items.length limit) := by
  refine ⟨List.length_replicate _ _, List.length_replicate _ _, Nat.zero_le _,
    fun i _ => list_getD_replicate_none _ _, ?_, ?_, ?_, ?_⟩
  · intro w i x hw
    exact absurd (list_get?_replicate _ _ _ _ hw) (by simp)
  · intro i hi
    simp [initPool] at hi
  · intro w w' i x x' hw _
    exact absurd (list_get?_replicate _ _ _ _ hw) (by simp)
  · intro w hw
    exact absurd (list_get?_replicate _ _ _ _ hw) (by simp)

theorem poolInv_step {items : List α} {fn : α → β} {limit : Nat} {s s' : PoolState α β}
    (hinv : PoolInv items fn limit s) (hstep : PoolStep items fn s s') :
    PoolInv items fn limit s' := by
  obtain ⟨hrl, hwl, hnl, hunc, hrun, hcl, huniq, hfin⟩ := hinv
  cases hstep with
  | claim w x hw hx =>
      have hwlt : w < s.workers.length := by
        by_contra hge
        rw [List.get?_eq_none.mpr (by omega)] at hw
        exact absurd hw (by simp)
      have hnlt : s.nextIdx < items.length := by
        rcases List.get?_eq_some.mp hx with ⟨h, -⟩
        exact h
      refine ⟨?_, ?_, ?_, ?_, ?_, ?_, ?_, ?_⟩ <;> dsimp only
      · exact hrl
      · rw [List.length_set]
        exact hwl
      · omega
      · intro i hi
        exact hunc i (by omega)
      · intro w' i x' hw'
        by_cases hww : w' = w
        · subst hww
          rw [list_get?_set_self _ _ _ hwlt] at hw'
          injection hw' with hw'
          cases hw'
          exact ⟨by omega, hx, hunc _ (le_refl _)⟩
        · rw [list_get?_set_ne _ _ (fun hc => hww hc.symm)] at hw'
          obtain ⟨h1, h2, h3⟩ := hrun w' i x' hw'
          exact ⟨by omega, h2, h3⟩
      · intro i hi
        by_cases hii : i = s.nextIdx
        · subst hii
          exact Or.inl ⟨w, x, by rw [list_get?_set_self _ _ _ hwlt]⟩
        · rcases hcl i (by omega) with ⟨w', x', hw'⟩ | hr
          · have hww : w' ≠ w := by
              intro hc
              subst hc
              rw [hw'] at hw
              exact absurd (by injection hw) (by simp)
            exact Or.inl ⟨w', x', by rw [list_get?_set_ne _ _ (fun hc => hww hc.symm)]; exact hw'⟩
          · exact Or.inr hr
      · intro u v i xu xv hu hv
        by_cases huw : u = w <;> by_cases hvw : v = w
        · rw [huw, hvw]
        · subst huw
          rw [list_get?_set_self _ _ _ hwlt] at hu
          rw [list_get?_set_ne _ _ (fun hc => hvw hc.symm)] at hv
          injection hu with hu
          cases hu
          obtain ⟨h1, -, -⟩ := hrun v _ xv hv
          omega
        · subst hvw
          rw [list_get?_set_self _ _ _ hwlt] at hv
          rw [list_get?_set_ne _ _ (fun hc => huw hc.symm)] at hu
          injection hv with hv
          cases hv
          obtain ⟨h1, -, -⟩ := hrun u _ xu hu
          omega
        · rw [list_get?_set_ne _ _ (fun hc => huw hc.symm)] at hu
          rw [list_get?_set_ne _ _ (fun hc => hvw hc.symm)] at hv
          exact huniq u v i xu xv hu hv
      · intro w' hw'
        by_cases hww : w' = w
        · subst hww
          rw [list_get?_set_self _ _ _ hwlt] at hw'
          exact absurd (by injection hw') (by simp)
        · rw [list_get?_set_ne _ _ (fun hc => hww hc.symm)] at hw'
          have := hfin w' hw'
          omega
  | retire w hw h =>
      have hwlt : w < s.workers.length := by
        by_contra hge
        rw [List.get?_eq_none.mpr (by omega)] at hw
        exact absurd hw (by simp)
      refine ⟨?_, ?_, ?_, ?_, ?_, ?_, ?_, ?_⟩ <;> dsimp only
      · exact hrl
      · rw [List.length_set]
        exact hwl
      · exact hnl
      · exact hunc
      · intro w' i x' hw'
        by_cases hww : w' = w
        · subst hww
          rw [list_get?_set_self _ _ _ hwlt] at hw'
          exact absurd (by injection hw') (by simp)
        · rw [list_get?_set_ne _ _ (fun hc => hww hc.symm)] at hw'
          exact hrun w' i x' hw'
      · intro i hi
        rcases hcl i hi with ⟨w', x', hw'⟩ | hr
        · have hww : w' ≠ w := by
            intro hc
            subst hc
            rw [hw'] at hw
            exact absurd (by injection hw) (by simp)
          exact Or.inl ⟨w', x', by rw [list_get?_set_ne _ _ (fun hc => hww hc.symm)]; exact hw'⟩
        · exact Or.inr hr
      · intro u v i xu xv hu hv
        have huw : u ≠ w := by
          intro hc
          subst hc
          rw [list_get?_set_self _ _ _ hwlt] at hu
          exact absurd (by injection hu) (by simp)
        have hvw : v ≠ w := by
          intro hc
          subst hc
          rw [list_get?_set_self _ _ _ hwlt] at hv
          exact absurd (by injection hv) (by simp)
        rw [list_get?_set_ne _ _ (fun hc => huw hc.symm)] at hu
        rw [list_get?_set_ne _ _ (fun hc => hvw hc.symm)] at hv
        exact huniq u v i xu xv hu hv
      · intro w' _
        omega
  | write w i x hw =>
      obtain ⟨hi_lt, hx, hres⟩ := hrun w i x hw
      have hwlt : w < s.workers.length := by
        by_contra hge
        rw [List.get?_eq_none.mpr (by omega)] at hw
        exact absurd hw (by simp)
      have hires : i < s.results.length := by omega
      refine ⟨?_, ?_, ?_, ?_, ?_, ?_, ?_, ?_⟩ <;> dsimp only
      · rw [List.length_set]
        exact hrl
      · rw [List.length_set]
        exact hwl
      · exact hnl
      · intro i' hi'
        rw [list_getD_set_ne _ _ _ (fun hc => by omega)]
        exact hunc i' hi'
      · intro w' i' x' hw'
        have hww : w' ≠ w := by
          intro hc
          subst hc
          rw [list_get?_set_self _ _ _ hwlt] at hw'
          exact absurd (by injection hw') (by simp)
        rw [list_get?_set_ne _ _ (fun hc => hww hc.symm)] at hw'
        obtain ⟨h1, h2, h3⟩ := hrun w' i' x' hw'
        refine ⟨h1, h2, ?_⟩
        have hii : i' ≠ i := by
          intro hc
          subst hc
          exact hww (huniq w' w i' x' x hw' hw)
        rw [list_getD_set_ne _ _ _ (fun hc => hii hc.symm)]
        exact h3
      · intro i' hi'
        by_cases hii : i' = i
        · subst hii
          exact Or.inr ⟨x, hx, by rw [list_getD_set_self _ _ _ _ hires]⟩
        · rcases hcl i' hi' with ⟨w', x', hw'⟩ | ⟨x', hx', hr⟩
          · have hww : w' ≠ w := by
              intro hc
              subst hc
              rw [hw'] at hw
              injection hw with hw
              cases hw
              exact hii rfl
            exact Or.inl ⟨w', x',
              by rw [list_get?_set_ne _ _ (fun hc => hww hc.symm)]; exact hw'⟩
          · exact Or.inr ⟨x', hx',
              by rw [list_getD_set_ne _ _ _ (fun hc => hii hc.symm)]; exact hr⟩
      · intro u v i' xu xv hu hv
        have huw : u ≠ w := by
          intro hc
          subst hc
          rw [list_get?_set_self _ _ _ hwlt] at hu
          exact absurd (by injection hu) (by simp)
        have hvw : v ≠ w := by
          intro hc
          subst hc
          rw [list_get?_set_self _ _ _ hwlt] at hv
          exact absurd (by injection hv) (by simp)
        rw [list_get?_set_ne _ _ (fun hc => huw hc.symm)] at hu
        rw [list_get?_set_ne _ _ (fun hc => hvw hc.symm)] at hv
        exact huniq u v i' xu xv hu hv
      · intro w' hw'
        have hww : w' ≠ w := by
          intro hc
          subst hc
          rw [list_get?_set_self _ _ _ hwlt] at hw'
          exact absurd (by injection hw') (by simp)
        rw [list_get?_set_ne _ _ (fun hc => hww hc.symm)] at hw'
        exact hfin w' hw'

theorem poolInv_reachable {items : List α} {fn : α → β} {limit : Nat} {s : PoolState α β}
    (h : PoolReachable items fn limit s) : PoolInv items fn limit s := by
  induction h with
  | refl => exact poolInv_init items fn limit
  | tail hab hbc ih => exact poolInv_step ih hbc

/-- C4: under every interleaving of the worker pool, once `Promise.all`
resolves the result array of `parallelMap` holds `fn(items[i])` at index
`i` for every index of `items` — the fan-out preserves input order
regardless of completion order and of the concurrency limit (any limit of
at least one worker). -/
theorem parallelMap_results_eq_map (items : List α) (fn : α → β) (limit : Nat)
    (s : PoolState α β) (hlim : 1 ≤ limit) (hr : PoolReachable items fn limit s)
    (hdone : PoolDone s) :
    ∀ i x, items.get? i = some x → s.results.get? i = some (some (fn x)) := by
  obtain ⟨hrl, hwl, hnl, hunc, hrun, hcl, huniq, hfin⟩ := poolInv_reachable hr
  intro i x hx
  have hilt : i < items.length := by
    rcases List.get?_eq_some.mp hx with ⟨h, -⟩
    exact h
  have hw0 : s.workers.length = min limit items.length := hwl
  have hwpos : 0 < s.workers.length := by omega
  obtain ⟨st, hst⟩ : ∃ st, s.workers.get? 0 = some st := by
    cases hg : s.workers.get? 0 with
    | none =>
        rw [List.get?_eq_none] at hg
        omega
    | some st => exact ⟨st, rfl⟩
  have hfin0 : st = WStatus.finished := hdone st (List.get?_mem hst)
  subst hfin0
  have hnext : s.nextIdx = items.length := hfin 0 hst
  rcases hcl i (by omega) with ⟨w', x', hw'⟩ | ⟨x', hx', hres⟩
  · have hmem := List.get?_mem hw'
    have hcontra := hdone _ hmem
    exact absurd hcontra (by simp)
  · obtain rfl : x' = x := by
      rw [hx] at hx'
      injection hx' with h
      exact h.symm
    have hig : i < s.results.length := by omega
    rw [List.getD_eq_getElem?_getD] at hres
    cases hg : s.results[i]? with
    | none =>
        rw [hg] at hres
        exact absurd hres (by simp)
    | some v =>
        rw [hg] at hres
        simp only [Option.getD_some] at hres
        rw [List.get?_eq_getElem?, hg, hres]

/-- The terminal state of a one-item, one-worker run (claim, write,
retire). -/
def poolFinal : PoolState Nat Nat :=
  ⟨1, [some 6], [WStatus.finished]⟩

/-- Witness for C4: a concrete complete schedule over `items = [5]`,
`fn = Nat.succ`, `limit = 1` ends with `results[0] = some (fn 5)`. -/
theorem parallelMap_results_eq_map_witness :
    poolFinal.results.get? 0 = some (some 6) := by
  have h0 : PoolReachable [5] Nat.succ 1 (initPool Nat Nat 1 1) :=
    Relation.ReflTransGen.refl
  have h1 := Relation.ReflTransGen.tail h0
    (@PoolStep.claim Nat Nat [5] Nat.succ (initPool Nat Nat 1 1) 0 5 rfl rfl)
  have h2 := Relation.ReflTransGen.tail h1
    (@PoolStep.write Nat Nat [5] Nat.succ _ 0 0 5 rfl)
  have h3 := Relation.ReflTransGen.tail h2
    (@PoolStep.retire Nat Nat [5] Nat.succ _ 0 rfl (by decide))
  have hreach : PoolReachable [5] Nat.succ 1 poolFinal := h3
  have hdone : PoolDone poolFinal := by
    intro w hw
    simp only [poolFinal, List.mem_singleton] at hw
    exact hw
  exact parallelMap_results_eq_map [5] Nat.succ 1 poolFinal (by omega) hreach hdone 0 5 rfl

/-- C9: in every reachable state of the pool, exactly
`min(concurrency, childCount)` workers exist (client.ts line 189) and the
number of fetches in flight never exceeds that bound — in particular it
never exceeds the concurrency limit. -/
theorem parallelMap_bounded_workers (items : List α) (fn : α → β) (limit : Nat)
    (s : PoolState α β) (hr : PoolReachable items fn limit s) :
    s.workers.length = min limit items.length ∧
      runningCount s ≤ min limit items.length ∧ runningCount s ≤ limit := by
  have hwl := (poolInv_reachable hr).workers_len
  refine ⟨hwl, ?_, ?_⟩
  · rw [← hwl]
    exact List.countP_le_length _
  · calc runningCount s ≤ s.workers.length := List.countP_le_length _
      _ = min limit items.length := hwl
      _ ≤ limit := Nat.min_le_left _ _

/-- Witness for C9 at the spawn state with two items and limit 3:
`min 3 2 = 2` workers, none of them in flight. -/
theorem parallelMap_bounded_workers_witness :
    (initPool Nat Nat 2 3).workers.length = min 3 2 ∧
      runningCount (initPool Nat Nat 2 3) ≤ min 3 2 ∧
      runningCount (initPool Nat Nat 2 3) ≤ 3 :=
  parallelMap_bounded_workers [10, 20] Nat.succ 3 (initPool Nat Nat 2 3)
    Relation.ReflTransGen.refl

/-! ## Invariants of the hunk-grouping loop (C2 and C7)

The grouping loop of `formatUnifiedDiff` is analysed through inductive
invariants over `groupAux`.  `groupAux_preserve` is the generic induction
principle: a property preserved by `groupStep` holds of the final state. -/

/-- The `DiffLine` at position `k` of the edit script is a context line. -/
@[reducible] def contextAt (dl : List DiffLine) (k : Nat) : Prop :=
  (dl.getD k default).type = DiffType.context

/-- Generic loop-invariant principle for the grouping `forEach`. -/
theorem groupAux_preserve (dl : List DiffLine) (ctx : Nat) (P : Nat → GroupState → Prop)
    (hstep : ∀ k s, k < dl.length → P k s →
      P (k + 1) (groupStep dl ctx s k (dl.getD k default))) :
    ∀ m idx s, dl.length - idx = m → idx ≤ dl.length → P idx s →
      P dl.length (groupAux dl ctx (dl.drop idx) idx s) := by
  intro m
  induction m with
  | zero =>
      intro idx s hm hle hP
      have hidx : idx = dl.length := by omega
      subst hidx
      rw [List.drop_length]
      exact hP
  | succ m ih =>
      intro idx s hm hle hP
      have hlt : idx < dl.length := by omega
      have hdrop : dl.drop idx = dl.getD idx default :: dl.drop (idx + 1) := by
        rw [List.getD_eq_getElem _ _ hlt]
        exact List.drop_eq_getElem_cons hlt
      rw [hdrop, groupAux]
      exact ih (idx + 1) _ (by omega) (by omega) (hstep idx s hlt hP)

/-- The base invariant of the grouping loop at position `idx`:
if a change is pending (`lastChangeIndex = L ≥ 0`) then `L` is a change
at most `contextLines + 1` behind, everything strictly between `L` and
`idx` is context, and the `DiffLine` at `L` sits in the current hunk; if no
change is pending, the `contextLines + 1` positions before `idx` are all
context lines. -/
def BaseInv (dl : List DiffLine) (ctx : Nat) (idx : Nat) (s : GroupState) : Prop :=
  (∀ L, s.last = some L → L < idx ∧ idx ≤ L + ctx + 1 ∧ ¬ contextAt dl L ∧
      (∀ k, L < k → k < idx → contextAt dl k) ∧ dl.getD L default ∈ s.cur) ∧
  (s.last = none → ∀ k, k < idx → idx ≤ k + ctx + 1 → contextAt dl k)

theorem baseInv_zero (dl : List DiffLine) (ctx : Nat) :
    BaseInv dl ctx 0 ⟨[], [], none⟩ :=
  ⟨fun L hL => absurd hL (by simp), fun _ k hk _ => absurd hk (by omega)⟩

theorem baseInv_step (dl : List DiffLine) (ctx : Nat) (k : Nat) (s : GroupState)
    (hinv : BaseInv dl ctx k s) :
    BaseInv dl ctx (k + 1) (groupStep dl ctx s k (dl.getD k default)) := by
  obtain ⟨hsome, hnone⟩ := hinv
  by_cases hline : (dl.getD k default).type = DiffType.context
  · rw [groupStep, if_neg (by simpa using hline)]
    cases hlast : s.last with
    | none =>
        dsimp only
        refine ⟨?_, ?_⟩
        · intro L hL
          rw [hlast] at hL
          exact absurd hL (by simp)
        · intro _ j hj1 hj2
          rcases Nat.lt_succ_iff_lt_or_eq.mp hj1 with hj | hj
          · exact hnone hlast j hj (by omega)
          · subst hj
            exact hline
    | some L =>
        dsimp only
        obtain ⟨hL1, hL2, hL3, hL4, hL5⟩ := hsome L hlast
        by_cases hgap : k - L ≤ ctx
        · rw [if_pos hgap]
          refine ⟨?_, ?_⟩
          · intro L' hL'
            injection hL' with hL'
            subst hL'
            refine ⟨by omega, by omega, hL3, ?_, List.mem_append_left _ hL5⟩
            intro j hj1 hj2
            rcases Nat.lt_succ_iff_lt_or_eq.mp hj2 with hj | hj
            · exact hL4 j hj1 hj
            · subst hj
              exact hline
          · intro hc
            exact absurd hc (by simp)
        · rw [if_neg hgap]
          refine ⟨?_, ?_⟩
          · intro L' hL'
            exact absurd hL' (by simp)
          · intro _ j hj1 hj2
            rcases Nat.lt_succ_iff_lt_or_eq.mp hj1 with hj | hj
            · exact hL4 j (by omega) hj
            · subst hj
              exact hline
  · rw [groupStep, if_pos (by simpa using hline)]
    refine ⟨?_, ?_⟩
    · intro L' hL'
      simp only at hL'
      injection hL' with hL'
      subst hL'
      refine ⟨by omega, by omega, hline, ?_, by simp⟩
      intro j hj1 hj2
      exact absurd hj1 (by omega)
    · intro hc
      simp only at hc
      exact absurd hc (by simp)

/-- While scanning the run of context lines after a change at `p` (and
before the next change), the pending-change marker is exactly `p`. -/
theorem baseInv_last_eq (dl : List DiffLine) (ctx : Nat) {p q k : Nat} {s : GroupState}
    (hp : ¬ contextAt dl p) (hbet : ∀ j, p < j → j < q → contextAt dl j)
    (hinv : BaseInv dl ctx k s) (hk1 : p < k) (hk2 : k ≤ q) (hk3 : k ≤ p + ctx + 1) :
    s.last = some p := by
  cases hlast : s.last with
  | none => exact absurd (hinv.2 hlast p hk1 (by omega)) hp
  | some L =>
      obtain ⟨h1, h2, h3, h4, h5⟩ := hinv.1 L hlast
      rcases Nat.lt_trichotomy L p with hLp | hLp | hLp
      · exact absurd (h4 p hLp hk1) hp
      · rw [hLp]
      · exact absurd (hbet L hLp (by omega)) h3

/-- Every line of the edit script of the prefixes `(i, j)` carries a
1-based old position at most `i` (unless it is an addition) and a 1-based
new position at most `j` (unless it is a removal). -/
theorem buildDiffAux_pos_bound (a b : List String) :
    ∀ n i j, ∀ l ∈ buildDiffAux a b n i j,
      (l.type ≠ DiffType.add → ∃ k, l.oldLineNum = some k ∧ 1 ≤ k ∧ k ≤ i) ∧
      (l.type ≠ DiffType.remove → ∃ k, l.newLineNum = some k ∧ 1 ≤ k ∧ k ≤ j) := by
  intro n
  induction n with
  | zero => intro i j l hl; simp [buildDiffAux] at hl
  | succ n ih =>
      intro i j l hl
      rw [buildDiffAux] at hl
      by_cases h0 : i = 0 ∧ j = 0
      · rw [if_pos h0] at hl
        simp at hl
      · rw [if_neg h0] at hl
        by_cases hc : 0 < i ∧ 0 < j ∧ a.getD (i - 1) "" = b.getD (j - 1) ""
        · rw [if_pos hc] at hl
          rcases List.mem_append.mp hl with hrec | he
          · obtain ⟨ho, hn⟩ := ih (i - 1) (j - 1) l hrec
            exact ⟨fun ht => by obtain ⟨k, h1, h2, h3⟩ := ho ht; exact ⟨k, h1, h2, by omega⟩,
              fun ht => by obtain ⟨k, h1, h2, h3⟩ := hn ht; exact ⟨k, h1, h2, by omega⟩⟩
          · simp only [List.mem_singleton] at he
            subst he
            exact ⟨fun _ => ⟨i, rfl, by omega, le_refl _⟩,
              fun _ => ⟨j, rfl, by omega, le_refl _⟩⟩
        · rw [if_neg hc] at hl
          by_cases hadd : 0 < j ∧ (i = 0 ∨ lcsTable a b (i - 1) j ≤ lcsTable a b i (j - 1))
          · rw [if_pos hadd] at hl
            rcases List.mem_append.mp hl with hrec | he
            · obtain ⟨ho, hn⟩ := ih i (j - 1) l hrec
              exact ⟨ho,
                fun ht => by obtain ⟨k, h1, h2, h3⟩ := hn ht; exact ⟨k, h1, h2, by omega⟩⟩
            · simp only [List.mem_singleton] at he
              subst he
              exact ⟨fun ht => absurd rfl ht, fun _ => ⟨j, rfl, by omega, le_refl _⟩⟩
          · rw [if_neg hadd] at hl
            have hi : 0 < i := by
              rcases Nat.eq_zero_or_pos i with hz | hpos
              · exact absurd ⟨by omega, Or.inl hz⟩ hadd
              · exact hpos
            rcases List.mem_append.mp hl with hrec | he
            · obtain ⟨ho, hn⟩ := ih (i - 1) j l hrec
              exact ⟨fun ht => by obtain ⟨k, h1, h2, h3⟩ := ho ht; exact ⟨k, h1, h2, by omega⟩,
                hn⟩
            · simp only [List.mem_singleton] at he
              subst he
              exact ⟨fun _ => ⟨i, rfl, by omega, le_refl _⟩, fun ht => absurd rfl ht⟩

/-- The edit script never contains the same `DiffLine` value twice: the
recorded line numbers strictly decrease along the walk. -/
theorem buildDiffAux_nodup (a b : List String) :
    ∀ n i j, i + j ≤ n → (buildDiffAux a b n i j).Nodup := by
  intro n
  induction n with
  | zero => intro i j _; simp [buildDiffAux]
  | succ n ih =>
      intro i j hn
      rw [buildDiffAux]
      by_cases h0 : i = 0 ∧ j = 0
      · rw [if_pos h0]
        exact List.nodup_nil
      · rw [if_neg h0]
        by_cases hc : 0 < i ∧ 0 < j ∧ a.getD (i - 1) "" = b.getD (j - 1) ""
        · rw [if_pos hc]
          rw [List.nodup_append]
          refine ⟨ih (i - 1) (j - 1) (by omega), List.nodup_singleton _, ?_⟩
          intro l hl hl'
          simp only [List.mem_singleton] at hl'
          subst hl'
          obtain ⟨k, h1, -, h3⟩ :=
            (buildDiffAux_pos_bound a b n (i - 1) (j - 1) _ hl).1 (by simp)
          simp only [Option.some.injEq] at h1
          omega
        · rw [if_neg hc]
          by_cases hadd : 0 < j ∧ (i = 0 ∨ lcsTable a b (i - 1) j ≤ lcsTable a b i (j - 1))
          · rw [if_pos hadd]
            rw [List.nodup_append]
            refine ⟨ih i (j - 1) (by omega), List.nodup_singleton _, ?_⟩
            intro l hl hl'
            simp only [List.mem_singleton] at hl'
            subst hl'
            obtain ⟨k, h1, -, h3⟩ :=
              (buildDiffAux_pos_bound a b n i (j - 1) _ hl).2 (by simp)
            simp only [Option.some.injEq] at h1
            omega
          · rw [if_neg hadd]
            have hi : 0 < i := by
              rcases Nat.eq_zero_or_pos i with hz | hpos
              · exact absurd ⟨by omega, Or.inl hz⟩ hadd
              · exact hpos
            rw [List.nodup_append]
            refine ⟨ih (i - 1) j (by omega), List.nodup_singleton _, ?_⟩
            intro l hl hl'
            simp only [List.mem_singleton] at hl'
            subst hl'
            obtain ⟨k, h1, -, h3⟩ :=
              (buildDiffAux_pos_bound a b n (i - 1) j _ hl).1 (by simp)
            simp only [Option.some.injEq] at h1
            omega

/-- The full edit script of `buildDiff` has no duplicate `DiffLine`. -/
theorem buildDiff_nodup (a b : List String) : (buildDiff a b).Nodup :=
  buildDiffAux_nodup a b _ _ _ (le_refl _)

/-- In a duplicate-free script, positions are recoverable from values. -/
theorem nodup_getD_inj (dl : List DiffLine) (hN : dl.Nodup) {p q : Nat}
    (hp : p < dl.length) (hq : q < dl.length)
    (heq : dl.getD p default = dl.getD q default) : p = q := by
  rw [List.getD_eq_getElem _ _ hp, List.getD_eq_getElem _ _ hq] at heq
  have h := (List.Nodup.get_inj_iff hN).mp
    (show dl.get ⟨p, hp⟩ = dl.get ⟨q, hq⟩ from heq)
  exact congrArg Fin.val h

/-- Every element of `diffLines.slice(start, idx)` is the `DiffLine` at
some position in `[start, idx)`. -/
theorem mem_slice_spec (dl : List DiffLine) {start idx : Nat} {l : DiffLine}
    (h : l ∈ (dl.take idx).drop start) :
    ∃ k, start ≤ k ∧ k < idx ∧ k < dl.length ∧ dl.getD k default = l := by
  obtain ⟨m, hm, he⟩ := List.getElem_of_mem h
  have hm' := hm
  rw [List.length_drop, List.length_take] at hm'
  refine ⟨start + m, by omega, by omega, by omega, ?_⟩
  rw [List.getD_eq_getElem _ _ (by omega)]
  rw [List.getElem_drop, List.getElem_take] at he
  exact he

/-- The `contextBefore` slice collected at a change step consists of
context lines only (no change can hide between `lastChangeIndex` and the
current position, and with no pending change the previous `contextLines`
positions are context). -/
theorem mem_slice_context (dl : List DiffLine) (ctx k : Nat) (s : GroupState)
    (hinv : BaseInv dl ctx k s) {l : DiffLine}
    (h : l ∈ (dl.take k).drop
      ((match s.last with | none => 0 | some L => L + 1) ⊔ (k - ctx))) :
    l.type = DiffType.context := by
  obtain ⟨j, hj1, hj2, hj3, rfl⟩ := mem_slice_spec dl h
  cases hlast : s.last with
  | none =>
      rw [hlast] at hj1
      exact hinv.2 hlast j hj2 (by simp at hj1; omega)
  | some L =>
      rw [hlast] at hj1
      obtain ⟨-, -, -, h4, -⟩ := hinv.1 L hlast
      exact h4 j (by simp at hj1; omega) hj2

/-- Two change lines with only context between them and a gap of more than
`contextLines` unchanged lines never share a hunk: a reset fires on the
`contextLines + 1`-st unchanged line after the first change, flushing the
hunk that holds it, and the first change never re-enters the current hunk
(the `contextBefore` slice only picks up context lines). -/
theorem groupHunks_diff_hunk (dl : List DiffLine) (ctx : Nat) (hN : dl.Nodup) {p q : Nat}
    (hpq : p < q) (hq : q < dl.length)
    (hp : ¬ contextAt dl p) (hqc : ¬ contextAt dl q)
    (hbet : ∀ k, p < k → k < q → contextAt dl k)
    (hgap : p + ctx + 1 < q) :
    ∀ h ∈ groupHunks dl ctx, ¬ (dl.getD p default ∈ h ∧ dl.getD q default ∈ h) := by
  have hplen : p < dl.length := by omega
  have key := groupAux_preserve dl ctx
    (fun k s => BaseInv dl ctx k s ∧
      (k ≤ q → (dl.getD q default ∉ s.cur ∧ ∀ h ∈ s.hunks, dl.getD q default ∉ h)) ∧
      (p + ctx + 1 < k → dl.getD p default ∉ s.cur) ∧
      (∀ h ∈ s.hunks, ¬ (dl.getD p default ∈ h ∧ dl.getD q default ∈ h)) ∧
      ¬ (dl.getD p default ∈ s.cur ∧ dl.getD q default ∈ s.cur))
    ?_ dl.length 0 ⟨[], [], none⟩ (by omega) (by omega)
    ⟨baseInv_zero dl ctx, fun _ => ⟨by simp, by simp⟩, fun h => by simp, by simp, by simp⟩
  · rw [List.drop_zero] at key
    obtain ⟨-, -, -, hX3, hX4⟩ := key
    intro h hmem hboth
    simp only [groupHunks] at hmem
    rcases List.mem_append.mp hmem with hm | hm
    · exact hX3 h hm hboth
    · by_cases hcur : (groupAux dl ctx dl 0 ⟨[], [], none⟩).cur = []
      · rw [if_pos hcur] at hm
        simp at hm
      · rw [if_neg hcur] at hm
        simp only [List.mem_singleton] at hm
        subst hm
        exact hX4 hboth
  · intro k s hk hP
    obtain ⟨hbase, hX1, hX2, hX3, hX4⟩ := hP
    refine ⟨baseInv_step dl ctx k s hbase, ?_⟩
    by_cases hline : (dl.getD k default).type = DiffType.context
    · rw [groupStep, if_neg (fun hne => hne hline)]
      cases hlast : s.last with
      | none =>
          dsimp only
          refine ⟨fun hkq => hX1 (by omega), ?_, hX3, hX4⟩
          intro hr
          by_cases hkr : k = p + ctx + 1
          · exfalso
            have hlp := baseInv_last_eq dl ctx hp hbet hbase (by omega) (by omega) (by omega)
            rw [hlast] at hlp
            exact absurd hlp (by simp)
          · exact hX2 (by omega)
      | some L =>
          dsimp only
          have hlineq : dl.getD k default ≠ dl.getD q default := by
            intro he
            apply hqc
            show (dl.getD q default).type = DiffType.context
            rw [← he]
            exact hline
          have hlinep : dl.getD k default ≠ dl.getD p default := by
            intro he
            apply hp
            show (dl.getD p default).type = DiffType.context
            rw [← he]
            exact hline
          by_cases hgap2 : k - L ≤ ctx
          · rw [if_pos hgap2]
            refine ⟨?_, ?_, hX3, ?_⟩
            · intro hkq
              obtain ⟨hc1, hc2⟩ := hX1 (by omega)
              refine ⟨?_, hc2⟩
              intro hmem
              rcases List.mem_append.mp hmem with hm | hm
              · exact hc1 hm
              · simp only [List.mem_singleton] at hm
                exact hlineq hm.symm
            · intro hr
              have hne : k ≠ p + ctx + 1 := by
                intro hkr
                have hlp := baseInv_last_eq dl ctx hp hbet hbase (by omega) (by omega) (by omega)
                rw [hlast] at hlp
                injection hlp with hlp
                omega
              have hvp := hX2 (by omega)
              intro hmem
              rcases List.mem_append.mp hmem with hm | hm
              · exact hvp hm
              · simp only [List.mem_singleton] at hm
                exact hlinep hm.symm
            · rintro ⟨hma, hmb⟩
              apply hX4
              constructor
              · rcases List.mem_append.mp hma with hm | hm
                · exact hm
                · simp only [List.mem_singleton] at hm
                  exact absurd hm.symm hlinep
              · rcases List.mem_append.mp hmb with hm | hm
                · exact hm
                · simp only [List.mem_singleton] at hm
                  exact absurd hm.symm hlineq
          · rw [if_neg hgap2]
            refine ⟨?_, ?_, ?_, ?_⟩
            · intro hkq
              refine ⟨by simp, ?_⟩
              intro h hmem
              by_cases hcur : s.cur = []
              · rw [if_pos hcur] at hmem
                exact (hX1 (by omega)).2 h hmem
              · rw [if_neg hcur] at hmem
                rcases List.mem_append.mp hmem with hm | hm
                · exact (hX1 (by omega)).2 h hm
                · simp only [List.mem_singleton] at hm
                  subst hm
                  exact (hX1 (by omega)).1
            · intro _
              simp
            · intro h hmem
              by_cases hcur : s.cur = []
              · rw [if_pos hcur] at hmem
                exact hX3 h hmem
              · rw [if_neg hcur] at hmem
                rcases List.mem_append.mp hmem with hm | hm
                · exact hX3 h hm
                · simp only [List.mem_singleton] at hm
                  subst hm
                  exact hX4
            · simp
    · rw [groupStep, if_pos (show (dl.getD k default).type ≠ DiffType.context from hline)]
      dsimp only
      have hkp_or : k ≤ p ∨ q ≤ k := by
        by_contra hcon
        push_neg at hcon
        exact hline (hbet k hcon.1 hcon.2)
      have hctxB : ∀ l ∈ (List.filter (fun l => decide (l ∉ s.cur))
          (List.drop ((match s.last with | none => 0 | some L => L + 1) ⊔ (k - ctx))
            (List.take k dl))), l.type = DiffType.context :=
        fun l hl => mem_slice_context dl ctx k s hbase (List.mem_of_mem_filter hl)
      have hlinevp : dl.getD k default = dl.getD p default → k = p :=
        fun he => nodup_getD_inj dl hN (by omega) hplen he
      have hlinevq : dl.getD k default = dl.getD q default → k = q :=
        fun he => nodup_getD_inj dl hN (by omega) hq he
      refine ⟨?_, ?_, hX3, ?_⟩
      · intro hkq
        obtain ⟨hc1, hc2⟩ := hX1 (by omega)
        refine ⟨?_, hc2⟩
        intro hmem
        rcases List.mem_append.mp hmem with hm | hm
        · rcases List.mem_append.mp hm with hm' | hm'
          · exact hc1 hm'
          · exact hqc (hctxB _ hm')
        · simp only [List.mem_singleton] at hm
          have := hlinevq hm.symm
          omega
      · intro hr
        have hkr : k ≠ p + ctx + 1 := by
          intro hkr
          exact hline (hbet k (by omega) (by omega))
        have hvp := hX2 (by omega)
        intro hmem
        rcases List.mem_append.mp hmem with hm | hm
        · rcases List.mem_append.mp hm with hm' | hm'
          · exact hvp hm'
          · exact hp (hctxB _ hm')
        · simp only [List.mem_singleton] at hm
          have := hlinevp hm.symm
          omega
      · rintro ⟨hma, hmb⟩
        rcases hkp_or with hkp | hkq
        · obtain ⟨hc1, -⟩ := hX1 (by omega)
          rcases List.mem_append.mp hmb with hm | hm
          · rcases List.mem_append.mp hm with hm' | hm'
            · exact hc1 hm'
            · exact hqc (hctxB _ hm')
          · simp only [List.mem_singleton] at hm
            have := hlinevq hm.symm
            omega
        · rcases List.mem_append.mp hma with hm | hm
          · rcases List.mem_append.mp hm with hm' | hm'
            · exact hX2 (by omega) hm'
            · exact hp (hctxB _ hm')
          · simp only [List.mem_singleton] at hm
            have := hlinevp hm.symm
            omega

/-- Two change lines with only context between them and a gap of at most
`contextLines` unchanged lines end up in the same hunk. -/
theorem groupHunks_same_hunk (dl : List DiffLine) (ctx : Nat) {p q : Nat}
    (hpq : p < q) (hq : q < dl.length)
    (hp : ¬ contextAt dl p) (hqc : ¬ contextAt dl q)
    (hbet : ∀ k, p < k → k < q → contextAt dl k)
    (hgap : q ≤ p + ctx + 1) :
    ∃ h ∈ groupHunks dl ctx, dl.getD p default ∈ h ∧ dl.getD q default ∈ h := by
  have key := groupAux_preserve dl ctx
    (fun k s => BaseInv dl ctx k s ∧
      (p < k → k ≤ q → dl.getD p default ∈ s.cur) ∧
      (q < k → ((dl.getD p default ∈ s.cur ∧ dl.getD q default ∈ s.cur) ∨
        ∃ h ∈ s.hunks, dl.getD p default ∈ h ∧ dl.getD q default ∈ h)))
    ?_ dl.length 0 ⟨[], [], none⟩ (by omega) (by omega)
    ⟨baseInv_zero dl ctx, fun h _ => absurd h (by omega), fun h => absurd h (by omega)⟩
  · rw [List.drop_zero] at key
    obtain ⟨-, -, hY2⟩ := key
    rcases hY2 hq with ⟨hpc, hqc'⟩ | ⟨h, hmem, hph, hqh⟩
    · refine ⟨(groupAux dl ctx dl 0 ⟨[], [], none⟩).cur, ?_, hpc, hqc'⟩
      simp only [groupHunks]
      rw [if_neg (List.ne_nil_of_mem hpc)]
      exact List.mem_append_right _ (by simp)
    · refine ⟨h, ?_, hph, hqh⟩
      simp only [groupHunks]
      exact List.mem_append_left _ hmem
  · intro k s hk hP
    obtain ⟨hbase, hY1, hY2⟩ := hP
    refine ⟨baseInv_step dl ctx k s hbase, ?_, ?_⟩
    · -- the change at `p` enters the current hunk and stays while `k ≤ q`
      intro hpk hkq
      by_cases hkp : k = p
      · subst hkp
        rw [groupStep, if_pos (show (dl.getD k default).type ≠ DiffType.context from hp)]
        dsimp only
        exact List.mem_append_right _ (by simp)
      · have hpk' : p < k := by omega
        have hkq' : k < q := by omega
        have hctx : contextAt dl k := hbet k hpk' hkq'
        have hlast : s.last = some p :=
          baseInv_last_eq dl ctx hp hbet hbase hpk' (by omega) (by omega)
        rw [groupStep, if_neg (fun hne => hne hctx), hlast]
        dsimp only
        rw [if_pos (by omega : k - p ≤ ctx)]
        exact List.mem_append_left _ (hY1 hpk' (by omega))
    · -- after `q` both change lines travel together: in the current hunk
      -- or in an already-pushed hunk
      intro hqk
      by_cases hkq : k = q
      · subst hkq
        rw [groupStep, if_pos (show (dl.getD k default).type ≠ DiffType.context from hqc)]
        dsimp only
        exact Or.inl ⟨List.mem_append_left _ (List.mem_append_left _ (hY1 (by omega) (by omega))),
          List.mem_append_right _ (by simp)⟩
      · have hqk' : q < k := by omega
        rcases hY2 hqk' with ⟨hpc, hqc'⟩ | ⟨h, hmem, hph, hqh⟩
        · by_cases hline : (dl.getD k default).type = DiffType.context
          · rw [groupStep, if_neg (fun hne => hne hline)]
            cases hlast : s.last with
            | none =>
                dsimp only
                exact Or.inl ⟨hpc, hqc'⟩
            | some L =>
                dsimp only
                by_cases hgap2 : k - L ≤ ctx
                · rw [if_pos hgap2]
                  exact Or.inl ⟨List.mem_append_left _ hpc, List.mem_append_left _ hqc'⟩
                · rw [if_neg hgap2]
                  refine Or.inr ⟨s.cur, ?_, hpc, hqc'⟩
                  rw [if_neg (List.ne_nil_of_mem hpc)]
                  exact List.mem_append_right _ (by simp)
          · rw [groupStep, if_pos (show (dl.getD k default).type ≠ DiffType.context from hline)]
            dsimp only
            exact Or.inl ⟨List.mem_append_left _ (List.mem_append_left _ hpc),
              List.mem_append_left _ (List.mem_append_left _ hqc')⟩
        · by_cases hline : (dl.getD k default).type = DiffType.context
          · rw [groupStep, if_neg (fun hne => hne hline)]
            cases hlast : s.last with
            | none =>
                dsimp only
                exact Or.inr ⟨h, hmem, hph, hqh⟩
            | some L =>
                dsimp only
                by_cases hgap2 : k - L ≤ ctx
                · rw [if_pos hgap2]
                  exact Or.inr ⟨h, hmem, hph, hqh⟩
                · rw [if_neg hgap2]
                  refine Or.inr ⟨h, ?_, hph, hqh⟩
                  by_cases hcur : s.cur = []
                  · rw [if_pos hcur]
                    exact hmem
                  · rw [if_neg hcur]
                    exact List.mem_append_left _ hmem
          · rw [groupStep, if_pos (show (dl.getD k default).type ≠ DiffType.context from hline)]
            dsimp only
            exact Or.inr ⟨h, hmem, hph, hqh⟩

/-! ## C5: depth bound of the fetched tree -/

/-- A list of trees of height at most `d` has `heightList` at most `d+1`. -/
theorem heightList_le (d : Nat) :
    ∀ l : List PageNode, (∀ x ∈ l, treeHeight x ≤ d) → heightList l ≤ d + 1 := by
  intro l
  induction l with
  | nil => intro _; simp [heightList]
  | cons c cs ih =>
      intro h
      rw [heightList]
      refine max_le ?_ (le_trans (ih (fun x hx => h x (by simp [hx]))) (le_refl _))
      have := h c (by simp)
      omega

/-- C5: with a zero depth budget `fetchPageTree` returns a childless node
whatever the source would list as children, and in general the height of
the returned tree never exceeds the depth budget (a node whose remaining
budget is exhausted has no children). -/
theorem fetchPageTree_depth_zero (src : ContentSource) :
    (∀ id node, fetchPageTree src 0 id = Except.ok node → node.children = []) ∧
    (∀ d id node, fetchPageTree src d id = Except.ok node → treeHeight node ≤ d) := by
  constructor
  · intro id node h
    cases hp : src.fetchPage id with
    | error e => rw [fetchPageTree, hp] at h; exact absurd h (by simp [bind, Except.bind])
    | ok page =>
        rw [fetchPageTree, hp] at h
        simp only [bind, Except.bind, pure, Except.pure, Except.ok.injEq] at h
        subst h
        rfl
  · intro d
    induction d with
    | zero =>
        intro id node h
        cases hp : src.fetchPage id with
        | error e => rw [fetchPageTree, hp] at h; exact absurd h (by simp [bind, Except.bind])
        | ok page =>
            rw [fetchPageTree, hp] at h
            simp only [bind, Except.bind, pure, Except.pure, Except.ok.injEq] at h
            subst h
            simp [treeHeight, heightList]
    | succ d ih =>
        intro id node h
        cases hp : src.fetchPage id with
        | error e => rw [fetchPageTree, hp] at h; exact absurd h (by simp [bind, Except.bind])
        | ok page =>
            cases hc : src.listChildren id with
            | error e =>
                rw [fetchPageTree, hp, hc] at h
                exact absurd h (by simp [bind, Except.bind])
            | ok cs =>
                rw [fetchPageTree, hp, hc] at h
                simp only [bind, Except.bind, pure, Except.pure, Except.ok.injEq] at h
                subst h
                rw [treeHeight]
                refine heightList_le d _ ?_
                intro x hx
                rcases List.mem_map.mp hx with ⟨child, _, rfl⟩
                cases hch : fetchPageTree src d child.id with
                | ok n => simpa [hch] using ih child.id n hch
                | error e => simp [hch, stubNode, treeHeight, heightList]

/-- A content source whose pages all succeed and whose root lists one
child (used as concrete input for the depth-zero witness). -/
def treeSrcPlain : ContentSource :=
  ⟨fun i => Except.ok ⟨i, "t", "c"⟩,
   fun i => if i = "r" then Except.ok [⟨"k", "kt"⟩] else Except.ok []⟩

/-- Witness for C5: at depth 0 the fetched root has no children even
though the source lists one, and the height bound holds at depth 1. -/
theorem fetchPageTree_depth_zero_witness :
    (PageNode.mk "r" "t" "c" []).children = [] ∧
      treeHeight (PageNode.mk "r" "t" "c" [PageNode.mk "k" "t" "c" []]) ≤ 1 :=
  ⟨(fetchPageTree_depth_zero treeSrcPlain).1 "r" (PageNode.mk "r" "t" "c" []) rfl,
    (fetchPageTree_depth_zero treeSrcPlain).2 1 "r"
      (PageNode.mk "r" "t" "c" [PageNode.mk "k" "t" "c" []]) rfl⟩

/-! ## C3: failure isolation of the tree fetcher

The claim states that `fetchPageTree` throws **iff the root page fetch
itself fails**.  That is not what the code does: the root's own child
listing (`await fetchChildPages(cfg, pageId)`, client.ts line 152) is not
wrapped in any catch, so its failure also propagates to the caller even
when the root page fetch succeeded.  Only failures inside a child's
recursive call are caught (at that child's call site, client.ts line 157)
and replaced by the stub. -/

/-- A source whose pages all load but whose child listings always fail. -/
def treeSrcListFail : ContentSource :=
  ⟨fun i => Except.ok ⟨i, "t", "c"⟩, fun _ => Except.error "boom"⟩

/-- C3 counterexample: the root page fetch succeeds, yet
`fetchPageTree` at depth 1 throws (the root child listing failed) —
refuting "throws if and only if fetching the root node itself fails". -/
theorem fetchPageTree_rootlisting_counterexample :
    fetchPageTree treeSrcListFail 1 "r" = Except.error "boom" ∧
      treeSrcListFail.fetchPage "r" = Except.ok ⟨"r", "t", "c"⟩ :=
  ⟨rfl, rfl⟩

/-- C3 (amended): `fetchPageTree` throws iff the root's own page fetch
fails, or the depth budget is positive and the root's own child listing
fails.  Every failure of a child's recursive call (its page fetch, its
child listing, or anything deeper) is caught at that child's call site and
replaced by a stub carrying the child's id and title, an error-marked
content string, and no children, leaving the siblings and the parent
untouched. -/
theorem fetchPageTree_error_isolation (src : ContentSource) (d : Nat) (id : String) :
    ((∃ e, fetchPageTree src d id = Except.error e) ↔
      (∃ e, src.fetchPage id = Except.error e) ∨
        (0 < d ∧ ∃ e, src.listChildren id = Except.error e)) ∧
    (∀ page cs, src.fetchPage id = Except.ok page → src.listChildren id = Except.ok cs →
      0 < d →
      fetchPageTree src d id = Except.ok (PageNode.mk page.id page.title page.content
        (cs.map (fun child =>
          match fetchPageTree src (d - 1) child.id with
          | Except.ok node => node
          | Except.error e => stubNode child e)))) := by
  constructor
  · constructor
    · rintro ⟨e, he⟩
      cases hp : src.fetchPage id with
      | error e' => exact Or.inl ⟨e', rfl⟩
      | ok page =>
          cases d with
          | zero =>
              rw [fetchPageTree, hp] at he
              exact absurd he (by simp [bind, Except.bind, pure, Except.pure])
          | succ d =>
              cases hc : src.listChildren id with
              | error e' => exact Or.inr ⟨by omega, e', rfl⟩
              | ok cs =>
                  rw [fetchPageTree, hp, hc] at he
                  exact absurd he (by simp [bind, Except.bind, pure, Except.pure])
    · rintro (⟨e, he⟩ | ⟨hd, e, he⟩)
      · cases d with
        | zero => exact ⟨e, by rw [fetchPageTree, he]; rfl⟩
        | succ d => exact ⟨e, by rw [fetchPageTree, he]; rfl⟩
      · obtain ⟨k, rfl⟩ : ∃ k, d = k + 1 := ⟨d - 1, by omega⟩
        cases hp : src.fetchPage id with
        | error e' => exact ⟨e', by rw [fetchPageTree, hp]; rfl⟩
        | ok page => exact ⟨e, by rw [fetchPageTree, hp, he]; rfl⟩
  · intro page cs hp hc hd
    obtain ⟨k, rfl⟩ : ∃ k, d = k + 1 := ⟨d - 1, by omega⟩
    rw [fetchPageTree, hp, hc]
    rfl

/-- A source where the page `bad` fails to load while everything else
succeeds; the root lists a good child, the bad child, and another good
child. -/
def treeSrcMixed : ContentSource :=
  ⟨fun i => if i = "bad" then Except.error "x" else Except.ok ⟨i, "t", "c"⟩,
   fun i =>
      if i = "r" then Except.ok [⟨"a", "ta"⟩, ⟨"bad", "tb"⟩, ⟨"g", "tg"⟩]
      else Except.ok []⟩

/-- Witness for C3 (amended): with one failing middle child the tree comes
back with the failing child replaced by its stub and both siblings intact,
in the listed order. -/
theorem fetchPageTree_error_isolation_witness :
    fetchPageTree treeSrcMixed 1 "r" = Except.ok (PageNode.mk "r" "t" "c"
      [PageNode.mk "a" "t" "c" [],
        PageNode.mk "bad" "tb" "[Error fetching page: x]" [],
        PageNode.mk "g" "t" "c" []]) := by
  have h := (fetchPageTree_error_isolation treeSrcMixed 1 "r").2
    ⟨"r", "t", "c"⟩ [⟨"a", "ta"⟩, ⟨"bad", "tb"⟩, ⟨"g", "tg"⟩] rfl rfl (by omega)
  exact h

/-! ## Substring search (used to state the "no differences" sentinel claim) -/

/-- `needle` is a prefix of `hay` (over character lists). -/
def startsWith : List Char → List Char → Bool
  | [], _ => true
  | _ :: _, [] => false
  | a :: as, b :: bs => decide (a = b) && startsWith as bs

/-- `hay.includes(needle)`: some suffix of `hay` starts with `needle`. -/
def hasSubstr (needle : List Char) : List Char → Bool
  | [] => startsWith needle []
  | c :: cs => startsWith needle (c :: cs) || hasSubstr needle cs

/-! ## C1: diff of a text with itself

The claim asserts that `generateUnifiedDiff(T, T)` contains the
`(no differences)` sentinel.  It does not: `split('\n')` never returns an
empty array, the backward walk turns every line of the (identical) inputs
into a `context` `DiffLine`, so `diffLines` is non-empty and the sentinel
branch (diff.ts line 59) is unreachable; the grouping then produces zero
hunks and the output is exactly the two header lines.  The statistics half
of the claim does hold. -/

theorem splitLinesAux_ne_nil (cs acc : List Char) : splitLinesAux cs acc ≠ [] := by
  induction cs generalizing acc with
  | nil => simp [splitLinesAux]
  | cons c cs ih =>
      by_cases h : c = '\n' <;> simp [splitLinesAux, h, ih]

theorem splitLines_ne_nil (s : String) : splitLines s ≠ [] :=
  splitLinesAux_ne_nil s.toList []

/-- Walking identical prefixes emits one context line per position. -/
theorem buildDiffAux_self_succ (a : List String) {n i : Nat} (h : (i + 1) + (i + 1) ≤ n) :
    buildDiffAux a a n (i + 1) (i + 1) =
      buildDiffAux a a n i i ++ [⟨DiffType.context, a.getD i "", some (i + 1), some (i + 1)⟩] := by
  simpa using buildDiffAux_context a a h (by omega) (by omega) rfl

/-- The diff of a line list against itself consists of context lines only. -/
theorem buildDiffAux_self_context (a : List String) (i : Nat) : ∀ {n : Nat}, i + i ≤ n →
    ∀ l ∈ buildDiffAux a a n i i, l.type = DiffType.context := by
  induction i with
  | zero => intro n _; rw [buildDiffAux_zero]; simp
  | succ i ih =>
      intro n hn
      rw [buildDiffAux_self_succ a hn]
      intro l hl
      rcases List.mem_append.mp hl with h | h
      · exact ih (by omega) l h
      · simp at h; simp [h]

/-- A state whose pending-change marker is clear and that sees only context
lines passes through the grouping loop unchanged. -/
theorem groupAux_context_fix (dl : List DiffLine) (ctx : Nat) :
    ∀ (rest : List DiffLine) (idx : Nat) (s : GroupState),
      (∀ l ∈ rest, l.type = DiffType.context) → s.last = none →
      groupAux dl ctx rest idx s = s := by
  intro rest
  induction rest with
  | nil => intro idx s _ _; rfl
  | cons line rest ih =>
      intro idx s hall hlast
      have hline : line.type = DiffType.context := hall line (by simp)
      have hstep : groupStep dl ctx s idx line = s := by
        simp [groupStep, hline, hlast]
      rw [groupAux, hstep]
      exact ih (idx + 1) s (fun l hl => hall l (by simp [hl])) hlast

/-- C1 counterexample input: with `T = "a"` the unified diff of `T` against
itself is the two header lines with no `(no differences)` sentinel anywhere
in it, while the statistics are all zero — refuting the sentinel half of
the claim at a concrete input. -/
theorem C1_counterexample :
    hasSubstr "(no differences)".toList
        (generateUnifiedDiff "a" "a" "a/original" "b/modified").toList = false ∧
      generateDiffStats "a" "a" = ⟨0, 0, 0⟩ := by
  constructor <;> rfl

/-- C1 (amended): for every text `T` and labels, `generateUnifiedDiff(T, T)`
yields exactly the two header lines — zero hunks, and no `(no differences)`
sentinel, which is unreachable from `generateUnifiedDiff` — and
`generateDiffStats(T, T) = {additions: 0, deletions: 0, changes: 0}`. -/
theorem generateUnifiedDiff_self (T lOld lNew : String) :
    generateUnifiedDiff T T lOld lNew = "--- " ++ lOld ++ "\n+++ " ++ lNew ∧
      generateDiffStats T T = ⟨0, 0, 0⟩ := by
  have hctx : ∀ l ∈ buildDiff (splitLines T) (splitLines T), l.type = DiffType.context :=
    buildDiffAux_self_context (splitLines T) (splitLines T).length (by omega)
  constructor
  · show formatUnifiedDiff lOld lNew (buildDiff (splitLines T) (splitLines T)) 3 = _
    have hne : buildDiff (splitLines T) (splitLines T) ≠ [] := by
      unfold buildDiff
      rcases Nat.exists_eq_succ_of_ne_zero
        (fun h => splitLines_ne_nil T (List.length_eq_zero.mp h)) with ⟨n, hn⟩
      rw [hn, buildDiffAux_self_succ (splitLines T) (by omega)]
      simp
    rw [formatUnifiedDiff, if_neg (by simpa [List.length_eq_zero] using hne)]
    have hgrp : groupHunks (buildDiff (splitLines T) (splitLines T)) 3 = [] := by
      simp only [groupHunks]
      rw [groupAux_context_fix _ 3 (buildDiff (splitLines T) (splitLines T)) 0
        ⟨[], [], none⟩ hctx rfl]
      simp
    rw [hgrp]
    show (("--- " ++ lOld) ++ "\n") ++ ("+++ " ++ lNew) =
      "--- " ++ lOld ++ "\n+++ " ++ lNew
    simp only [String.append_assoc]
    congr 2
  · show generateDiffStats T T = _
    have hadd : List.filter (fun l => decide (l.type = DiffType.add))
        (buildDiff (splitLines T) (splitLines T)) = [] := by
      rw [List.filter_eq_nil_iff]
      intro l hl
      simp [hctx l hl]
    have hrem : List.filter (fun l => decide (l.type = DiffType.remove))
        (buildDiff (splitLines T) (splitLines T)) = [] := by
      rw [List.filter_eq_nil_iff]
      intro l hl
      simp [hctx l hl]
    simp only [generateDiffStats, hadd, hrem]
    rfl

/-! ## C6: the shape of the edit-script reconstruction -/

/-- C6: at every interior step `(i, j)` of the backward walk (both `i` and
`j` positive): on a line match a context line is emitted and both indices
step back; on a mismatch an addition is emitted and the new index steps
back exactly when `dp[i][j-1] >= dp[i-1][j]` (so a tie prefers the
addition), and otherwise a removal is emitted and the old index steps
back. -/
theorem buildDiff_reconstruction_steps (a b : List String) (n i j : Nat) (hn : i + j ≤ n) :
    (0 < i → 0 < j → a.getD (i - 1) "" = b.getD (j - 1) "" →
      buildDiffAux a b n i j = buildDiffAux a b n (i - 1) (j - 1) ++
        [⟨DiffType.context, a.getD (i - 1) "", some i, some j⟩]) ∧
    (0 < i → 0 < j → a.getD (i - 1) "" ≠ b.getD (j - 1) "" →
      lcsTable a b (i - 1) j ≤ lcsTable a b i (j - 1) →
      buildDiffAux a b n i j = buildDiffAux a b n i (j - 1) ++
        [⟨DiffType.add, b.getD (j - 1) "", none, some j⟩]) ∧
    (0 < i → 0 < j → a.getD (i - 1) "" ≠ b.getD (j - 1) "" →
      ¬ lcsTable a b (i - 1) j ≤ lcsTable a b i (j - 1) →
      buildDiffAux a b n i j = buildDiffAux a b n (i - 1) j ++
        [⟨DiffType.remove, a.getD (i - 1) "", some i, none⟩]) := by
  refine ⟨fun hi hj hab => buildDiffAux_context a b hn hi hj hab,
    fun hi hj hab hd => buildDiffAux_add a b hn hj (fun hc => hab hc.2.2) (Or.inr hd),
    fun hi hj hab hd => buildDiffAux_remove a b hn hi (fun hc => hab hc.2.2) ?_⟩
  rintro ⟨-, h | h⟩
  · omega
  · exact hd h

/-- Witness for C6 at a concrete mismatch with a dp tie: diffing `["a"]`
against `["x"]` takes the addition branch first. -/
theorem buildDiff_reconstruction_steps_witness :
    buildDiffAux ["a"] ["x"] 2 1 1 =
      buildDiffAux ["a"] ["x"] 2 1 0 ++ [⟨DiffType.add, "x", none, some 1⟩] :=
  (buildDiff_reconstruction_steps ["a"] ["x"] 2 1 1 (by decide)).2.1
    (by decide) (by decide) (by decide) (by decide)

/-! ## C8: the edit script reconstructs both inputs -/

/-- Dropping the additions (resp. removals) from the edit script of the
prefixes `(i, j)` and reading off the line texts gives back the first `i`
old lines (resp. first `j` new lines). -/
theorem buildDiffAux_reconstruct (a b : List String) :
    ∀ n i j, i + j ≤ n → i ≤ a.length → j ≤ b.length →
      ((buildDiffAux a b n i j).filter
          (fun l => decide (l.type ≠ DiffType.add))).map DiffLine.line = a.take i ∧
      ((buildDiffAux a b n i j).filter
          (fun l => decide (l.type ≠ DiffType.remove))).map DiffLine.line = b.take j := by
  intro n
  induction n with
  | zero =>
      intro i j hn _ _
      have hi : i = 0 := by omega
      have hj : j = 0 := by omega
      subst hi; subst hj
      simp [buildDiffAux]
  | succ n ih =>
      intro i j hn hia hjb
      by_cases h0 : i = 0 ∧ j = 0
      · rcases h0 with ⟨rfl, rfl⟩
        simp [buildDiffAux_zero]
      · have htake_a : 0 < i → a.take i = a.take (i - 1) ++ [a.getD (i - 1) ""] := by
          intro hi
          obtain ⟨k, rfl⟩ : ∃ k, i = k + 1 := ⟨i - 1, by omega⟩
          rw [List.take_succ, List.getD_eq_getElem?_getD]
          have hk : k < a.length := by omega
          simp [List.getElem?_eq_getElem hk]
        have htake_b : 0 < j → b.take j = b.take (j - 1) ++ [b.getD (j - 1) ""] := by
          intro hj
          obtain ⟨k, rfl⟩ : ∃ k, j = k + 1 := ⟨j - 1, by omega⟩
          rw [List.take_succ, List.getD_eq_getElem?_getD]
          have hk : k < b.length := by omega
          simp [List.getElem?_eq_getElem hk]
        by_cases hm : 0 < i ∧ 0 < j ∧ a.getD (i - 1) "" = b.getD (j - 1) ""
        · obtain ⟨hi, hj, hab⟩ := hm
          rw [buildDiffAux_context a b hn hi hj hab,
            buildDiffAux_congr a b (n + 1) n (i - 1) (j - 1) (by omega) (by omega)]
          obtain ⟨iha, ihb⟩ := ih (i - 1) (j - 1) (by omega) (by omega) (by omega)
          constructor
          · rw [List.filter_append, List.map_append, iha, htake_a hi]
            simp
          · rw [List.filter_append, List.map_append, ihb, htake_b hj]
            simp
            rw [← List.getD_eq_getElem?_getD, ← List.getD_eq_getElem?_getD]
            exact hab
        · by_cases hadd : 0 < j ∧ (i = 0 ∨ lcsTable a b (i - 1) j ≤ lcsTable a b i (j - 1))
          · obtain ⟨hj, hd⟩ := hadd
            rw [buildDiffAux_add a b hn hj hm hd,
              buildDiffAux_congr a b (n + 1) n i (j - 1) (by omega) (by omega)]
            obtain ⟨iha, ihb⟩ := ih i (j - 1) (by omega) (by omega) (by omega)
            constructor
            · rw [List.filter_append, List.map_append, iha]
              simp
            · rw [List.filter_append, List.map_append, ihb, htake_b hj]
              simp
          · have hi : 0 < i := by
              rcases Nat.eq_zero_or_pos i with hz | hp
              · exact absurd ⟨by omega, Or.inl hz⟩ hadd
              · exact hp
            rw [buildDiffAux_remove a b hn hi hm hadd,
              buildDiffAux_congr a b (n + 1) n (i - 1) j (by omega) (by omega)]
            obtain ⟨iha, ihb⟩ := ih (i - 1) j (by omega) (by omega) (by omega)
            constructor
            · rw [List.filter_append, List.map_append, iha, htake_a hi]
              simp
            · rw [List.filter_append, List.map_append, ihb]
              simp

/-! ## C10: extractConfluencePageId returns decimal ids or throws -/

/-- The captured digit run of `digitSpan` really is all digits. -/
theorem digitSpan_all_digits : ∀ cs : List Char, ∀ c ∈ (digitSpan cs).1, c.isDigit = true := by
  intro cs
  induction cs with
  | nil => simp [digitSpan]
  | cons c cs ih =>
      by_cases h : c.isDigit
      · simp only [digitSpan, if_pos h]
        intro x hx
        rcases List.mem_cons.mp hx with rfl | hx
        · exact h
        · exact ih x hx
      · simp [digitSpan, h]

/-- A successful anchored match yields a non-empty all-digit capture. -/
theorem matchPagesHere_some {cs d : List Char} (h : matchPagesHere cs = some d) :
    d ≠ [] ∧ ∀ c ∈ d, c.isDigit = true := by
  by_cases h7 : cs.take 7 = "/pages/".toList
  · simp only [matchPagesHere, if_pos h7] at h
    by_cases hc : (digitSpan (cs.drop 7)).1 ≠ [] ∧
        ((digitSpan (cs.drop 7)).2 = [] ∨ (digitSpan (cs.drop 7)).2.headD ' ' = '/')
    · rw [if_pos hc] at h
      obtain rfl : (digitSpan (cs.drop 7)).1 = d := by injection h
      exact ⟨hc.1, digitSpan_all_digits _⟩
    · rw [if_neg hc] at h
      exact absurd h (by simp)
  · simp only [matchPagesHere, if_neg h7] at h
    exact absurd h (by simp)

/-- Any match found by the left-to-right scan is a non-empty digit run. -/
theorem findPagesId_some : ∀ cs d : List Char, findPagesId cs = some d →
    d ≠ [] ∧ ∀ c ∈ d, c.isDigit = true := by
  intro cs
  induction cs with
  | nil => intro d h; exact absurd h (by simp [findPagesId])
  | cons c cs ih =>
      intro d h
      rw [findPagesId] at h
      cases hm : matchPagesHere (c :: cs) with
      | none =>
          simp only [hm] at h
          exact ih d h
      | some d' =>
          simp only [hm, Option.some.injEq] at h
          subst h
          exact matchPagesHere_some hm

/-- C10: `extractConfluencePageId` never succeeds with an empty or
non-numeric identifier — every `ok` value is a non-empty string of decimal
digits — and when the `pageId` query parameter passes the `/^\d+$/` test it
is returned as-is. -/
theorem extractConfluencePageId_spec (u : URLParts) :
    (∀ s, extractConfluencePageId u = Except.ok s →
      s ≠ "" ∧ s.toList.all (fun c => c.isDigit) = true) ∧
    (∀ pid, u.pageIdParam = some pid → isNumericStr pid = true →
      extractConfluencePageId u = Except.ok pid) := by
  obtain ⟨param, path⟩ := u
  have hpath : ∀ s, pagesPathId path = Except.ok s →
      s ≠ "" ∧ s.toList.all (fun c => c.isDigit) = true := by
    intro s hs
    rw [pagesPathId] at hs
    cases hf : findPagesId path.toList with
    | none =>
        simp only [hf] at hs
        exact absurd hs (by simp)
    | some d =>
        simp only [hf, Except.ok.injEq] at hs
        subst hs
        obtain ⟨hne, hdig⟩ := findPagesId_some path.toList d hf
        refine ⟨fun hc => hne ?_, ?_⟩
        · simpa using congrArg String.toList hc
        · simpa [List.all_eq_true] using hdig
  constructor
  · intro s hs
    rcases param with - | pid
    · exact hpath s hs
    · dsimp only [extractConfluencePageId] at hs
      by_cases hgood : (!pid.isEmpty && isNumericStr pid) = true
      · rw [if_pos hgood] at hs
        obtain rfl : pid = s := by injection hs
        rw [Bool.and_eq_true] at hgood
        obtain ⟨hne0, h2⟩ := hgood
        have h1 : pid.isEmpty = false := by simpa using hne0
        rw [isNumericStr, Bool.and_eq_true] at h2
        refine ⟨fun hc => ?_, h2.2⟩
        · rw [hc] at h1
          exact absurd h1 (by decide)
      · rw [if_neg hgood] at hs
        exact hpath s hs
  · intro pid hp hnum
    obtain rfl : param = some pid := hp
    have hne : (!pid.isEmpty) = true := by
      have h := hnum
      rw [isNumericStr, Bool.and_eq_true] at h
      exact h.1
    dsimp only [extractConfluencePageId]
    rw [if_pos (by rw [hnum, hne]; rfl)]

/-- Witness for C10: the query-parameter branch returns `"7"` for
`?pageId=7`, and from the path `/pages/42` the extractor returns the
non-empty digit string `"42"`. -/
theorem extractConfluencePageId_spec_witness :
    (("42" : String) ≠ "" ∧ "42".toList.all (fun c => c.isDigit) = true) ∧
      extractConfluencePageId ⟨some "7", "/x"⟩ = Except.ok "7" :=
  ⟨(extractConfluencePageId_spec ⟨none, "/pages/42"⟩).1 "42" rfl,
    (extractConfluencePageId_spec ⟨some "7", "/x"⟩).2 "7" rfl (by decide)⟩

/-- C8: for every pair of input texts, the `DiffLine` sequence of
`buildDiff` reconstructs both inputs: the context+remove lines, in order,
are the old line sequence, and the context+add lines, in order, are the
new line sequence. -/
theorem buildDiff_reconstructs (oldText newText : String) :
    ((buildDiff (splitLines oldText) (splitLines newText)).filter
        (fun l => decide (l.type ≠ DiffType.add))).map DiffLine.line = splitLines oldText ∧
    ((buildDiff (splitLines oldText) (splitLines newText)).filter
        (fun l => decide (l.type ≠ DiffType.remove))).map DiffLine.line = splitLines newText := by
  have h := buildDiffAux_reconstruct (splitLines oldText) (splitLines newText)
    ((splitLines oldText).length + (splitLines newText).length)
    (splitLines oldText).length (splitLines newText).length
    (le_refl _) (le_refl _) (le_refl _)
  simpa [buildDiff, List.take_length] using h

/-- counting a membership predicate over a one-hunk list. -/
theorem countP_mem_singleton (v : DiffLine) (h : List DiffLine) :
    List.countP (fun x => decide (v ∈ x)) [h] = if v ∈ h then 1 else 0 := by
  by_cases hm : v ∈ h <;> simp [hm]

/-- A change line is picked up into the current hunk only at its own step:
over the whole run it lands in at most one output hunk. -/
theorem groupHunks_change_once (dl : List DiffLine) (ctx : Nat) (hN : dl.Nodup) {p : Nat}
    (hplen : p < dl.length) (hp : ¬ contextAt dl p) :
    (groupHunks dl ctx).countP (fun h => decide (dl.getD p default ∈ h)) ≤ 1 := by
  have key := groupAux_preserve dl ctx
    (fun k s => BaseInv dl ctx k s ∧
      (k ≤ p → (dl.getD p default ∉ s.cur ∧ ∀ h ∈ s.hunks, dl.getD p default ∉ h)) ∧
      s.hunks.countP (fun h => decide (dl.getD p default ∈ h)) +
        (if dl.getD p default ∈ s.cur then 1 else 0) ≤ 1)
    ?_ dl.length 0 ⟨[], [], none⟩ (by omega) (by omega)
    ⟨baseInv_zero dl ctx, fun _ => ⟨by simp, by simp⟩, by simp⟩
  · rw [List.drop_zero] at key
    obtain ⟨-, -, hU2⟩ := key
    simp only [groupHunks]
    rw [List.countP_append]
    by_cases hcur : (groupAux dl ctx dl 0 ⟨[], [], none⟩).cur = []
    · rw [if_pos hcur]
      have hnm : dl.getD p default ∉ (groupAux dl ctx dl 0 ⟨[], [], none⟩).cur := by
        rw [hcur]
        simp
      rw [if_neg hnm] at hU2
      simp only [List.countP_nil]
      omega
    · rw [if_neg hcur, countP_mem_singleton]
      by_cases hm : dl.getD p default ∈ (groupAux dl ctx dl 0 ⟨[], [], none⟩).cur
      · rw [if_pos hm] at hU2
        rw [if_pos hm]
        omega
      · rw [if_neg hm] at hU2
        rw [if_neg hm]
        omega
  · intro k s hk hP
    obtain ⟨hbase, hU1, hU2⟩ := hP
    refine ⟨baseInv_step dl ctx k s hbase, ?_⟩
    by_cases hline : (dl.getD k default).type = DiffType.context
    · rw [groupStep, if_neg (fun hne => hne hline)]
      have hlinep : dl.getD k default ≠ dl.getD p default := by
        intro he
        apply hp
        show (dl.getD p default).type = DiffType.context
        rw [← he]
        exact hline
      cases hlast : s.last with
      | none =>
          dsimp only
          exact ⟨fun hkp => hU1 (by omega), hU2⟩
      | some L =>
          dsimp only
          by_cases hgap2 : k - L ≤ ctx
          · rw [if_pos hgap2]
            have hmem_iff : (dl.getD p default ∈ s.cur ++ [dl.getD k default]) ↔
                dl.getD p default ∈ s.cur := by
              constructor
              · intro hmem
                rcases List.mem_append.mp hmem with hm | hm
                · exact hm
                · simp only [List.mem_singleton] at hm
                  exact absurd hm.symm hlinep
              · exact fun hm => List.mem_append_left _ hm
            refine ⟨?_, ?_⟩
            · intro hkp
              obtain ⟨hc1, hc2⟩ := hU1 (by omega)
              exact ⟨fun hm => hc1 (hmem_iff.mp hm), hc2⟩
            · by_cases hm : dl.getD p default ∈ s.cur
              · rw [if_pos (hmem_iff.mpr hm)]
                rw [if_pos hm] at hU2
                exact hU2
              · rw [if_neg (fun hc => hm (hmem_iff.mp hc))]
                rw [if_neg hm] at hU2
                exact hU2
          · rw [if_neg hgap2]
            dsimp only
            have hnil : (if dl.getD p default ∈ ([] : List DiffLine) then 1 else 0) = 0 := by
              simp
            refine ⟨?_, ?_⟩
            · intro hkp
              obtain ⟨hc1, hc2⟩ := hU1 (by omega)
              refine ⟨by simp, ?_⟩
              intro h hmem
              by_cases hcur : s.cur = []
              · rw [if_pos hcur] at hmem
                exact hc2 h hmem
              · rw [if_neg hcur] at hmem
                rcases List.mem_append.mp hmem with hm | hm
                · exact hc2 h hm
                · simp only [List.mem_singleton] at hm
                  subst hm
                  exact hc1
            · rw [hnil]
              by_cases hcur : s.cur = []
              · rw [if_pos hcur]
                have hnm : dl.getD p default ∉ s.cur := by
                  rw [hcur]
                  simp
                rw [if_neg hnm] at hU2
                omega
              · rw [if_neg hcur]
                rw [List.countP_append, countP_mem_singleton]
                by_cases hm : dl.getD p default ∈ s.cur
                · rw [if_pos hm]
                  rw [if_pos hm] at hU2
                  omega
                · rw [if_neg hm]
                  rw [if_neg hm] at hU2
                  omega
    · rw [groupStep, if_pos (show (dl.getD k default).type ≠ DiffType.context from hline)]
      dsimp only
      have hctxB : ∀ l ∈ (List.filter (fun l => decide (l ∉ s.cur))
          (List.drop ((match s.last with | none => 0 | some L => L + 1) ⊔ (k - ctx))
            (List.take k dl))), l.type = DiffType.context :=
        fun l hl => mem_slice_context dl ctx k s hbase (List.mem_of_mem_filter hl)
      have hlinevp : dl.getD k default = dl.getD p default → k = p :=
        fun he => nodup_getD_inj dl hN (by omega) hplen he
      have hcur_iff : (dl.getD p default ∈
          s.cur ++ (List.filter (fun l => decide (l ∉ s.cur))
            (List.drop ((match s.last with | none => 0 | some L => L + 1) ⊔ (k - ctx))
              (List.take k dl))) ++ [dl.getD k default]) ↔
          (dl.getD p default ∈ s.cur ∨ k = p) := by
        constructor
        · intro hmem
          rcases List.mem_append.mp hmem with hm | hm
          · rcases List.mem_append.mp hm with hm' | hm'
            · exact Or.inl hm'
            · exact absurd (hctxB _ hm') hp
          · simp only [List.mem_singleton] at hm
            exact Or.inr (hlinevp hm.symm)
        · intro hm
          rcases hm with hm | hm
          · exact List.mem_append_left _ (List.mem_append_left _ hm)
          · subst hm
            exact List.mem_append_right _ (by simp)
      refine ⟨?_, ?_⟩
      · intro hkp
        obtain ⟨hc1, hc2⟩ := hU1 (by omega)
        refine ⟨?_, hc2⟩
        intro hmem
        rcases hcur_iff.mp hmem with hm | hm
        · exact hc1 hm
        · omega
      · by_cases hm : dl.getD p default ∈ s.cur
        · rw [if_pos (hcur_iff.mpr (Or.inl hm))]
          rw [if_pos hm] at hU2
          exact hU2
        · by_cases hkp : k = p
          · rw [if_pos (hcur_iff.mpr (Or.inr hkp))]
            obtain ⟨-, hc2⟩ := hU1 (by omega)
            have hz : s.hunks.countP (fun h => decide (dl.getD p default ∈ h)) = 0 := by
              rw [List.countP_eq_zero]
              intro h hh
              simp only [decide_eq_true_eq]
              exact hc2 h hh
            omega
          · rw [if_neg (fun hc => by
              rcases hcur_iff.mp hc with hmm | hmm
              · exact hm hmm
              · exact hkp hmm)]
            rw [if_neg hm] at hU2
            exact hU2

/-- Pushing the current hunk preserves "every hunk holding `vq` is
preceded (or joined) by one holding `vp`". -/
theorem z2_extend (vp vq : DiffLine) (hunks : List (List DiffLine)) (cur : List DiffLine)
    (hZ1 : vq ∈ cur → (vp ∈ cur ∨ ∃ h ∈ hunks, vp ∈ h))
    (hZ2 : ∀ b, b < hunks.length → vq ∈ hunks.getD b [] →
      ∃ m, m ≤ b ∧ m < hunks.length ∧ vp ∈ hunks.getD m []) :
    ∀ b, b < (hunks ++ [cur]).length → vq ∈ (hunks ++ [cur]).getD b [] →
      ∃ m, m ≤ b ∧ m < (hunks ++ [cur]).length ∧ vp ∈ (hunks ++ [cur]).getD m [] := by
  intro b hb hmem
  by_cases hbl : b < hunks.length
  · rw [List.getD_append _ _ _ _ hbl] at hmem
    obtain ⟨m, hmb, hm, hvm⟩ := hZ2 b hbl hmem
    refine ⟨m, hmb, by simp; omega, ?_⟩
    rw [List.getD_append _ _ _ _ hm]
    exact hvm
  · have hbeq : b = hunks.length := by
      simp only [List.length_append, List.length_singleton] at hb
      omega
    subst hbeq
    rw [List.getD_append_right _ _ _ _ (le_refl _), Nat.sub_self] at hmem
    simp only [List.getD] at hmem
    rcases hZ1 hmem with hc | ⟨h, hh, hvh⟩
    · refine ⟨hunks.length, le_refl _, by simp, ?_⟩
      rw [List.getD_append_right _ _ _ _ (le_refl _), Nat.sub_self]
      exact hc
    · obtain ⟨m, hm, heq⟩ := List.getElem_of_mem hh
      refine ⟨m, by omega, by simp; omega, ?_⟩
      rw [List.getD_append _ _ _ _ hm, List.getD_eq_getElem _ _ hm, heq]
      exact hvh

/-- An earlier change line is never confined to a later hunk: any hunk
holding the `DiffLine` of change `q` is preceded (or joined) by a hunk
holding the `DiffLine` of an earlier change `p`. -/
theorem groupHunks_precedes (dl : List DiffLine) (ctx : Nat) (hN : dl.Nodup) {p q : Nat}
    (hpq : p < q) (hq : q < dl.length)
    (hp : ¬ contextAt dl p) (hqc : ¬ contextAt dl q) :
    ∀ b, b < (groupHunks dl ctx).length →
      dl.getD q default ∈ (groupHunks dl ctx).getD b [] →
      ∃ m, m ≤ b ∧ m < (groupHunks dl ctx).length ∧
        dl.getD p default ∈ (groupHunks dl ctx).getD m [] := by
  have hplen : p < dl.length := by omega
  have key := groupAux_preserve dl ctx
    (fun k s => BaseInv dl ctx k s ∧
      (p < k → (dl.getD p default ∈ s.cur ∨ ∃ h ∈ s.hunks, dl.getD p default ∈ h)) ∧
      (dl.getD q default ∈ s.cur →
        (dl.getD p default ∈ s.cur ∨ ∃ h ∈ s.hunks, dl.getD p default ∈ h)) ∧
      (∀ b, b < s.hunks.length → dl.getD q default ∈ s.hunks.getD b [] →
        ∃ m, m ≤ b ∧ m < s.hunks.length ∧ dl.getD p default ∈ s.hunks.getD m []))
    ?_ dl.length 0 ⟨[], [], none⟩ (by omega) (by omega)
    ⟨baseInv_zero dl ctx, fun h => absurd h (by omega), by simp, fun b hb => by simp at hb⟩
  · rw [List.drop_zero] at key
    obtain ⟨-, -, hZ1, hZ2⟩ := key
    simp only [groupHunks]
    by_cases hcur : (groupAux dl ctx dl 0 ⟨[], [], none⟩).cur = []
    · rw [if_pos hcur, List.append_nil]
      exact hZ2
    · rw [if_neg hcur]
      exact z2_extend _ _ _ _ hZ1 hZ2
  · intro k s hk hP
    obtain ⟨hbase, hW1, hZ1, hZ2⟩ := hP
    refine ⟨baseInv_step dl ctx k s hbase, ?_⟩
    by_cases hline : (dl.getD k default).type = DiffType.context
    · have hkp : k ≠ p := by
        intro hc
        subst hc
        exact hp hline
      have hlineq : dl.getD k default ≠ dl.getD q default := by
        intro he
        apply hqc
        show (dl.getD q default).type = DiffType.context
        rw [← he]
        exact hline
      rw [groupStep, if_neg (fun hne => hne hline)]
      cases hlast : s.last with
      | none =>
          dsimp only
          exact ⟨fun hpk => hW1 (by omega), hZ1, hZ2⟩
      | some L =>
          dsimp only
          by_cases hgap2 : k - L ≤ ctx
          · rw [if_pos hgap2]
            refine ⟨?_, ?_, hZ2⟩
            · intro hpk
              rcases hW1 (by omega) with hc | hex
              · exact Or.inl (List.mem_append_left _ hc)
              · exact Or.inr hex
            · intro hmem
              have hmem' : dl.getD q default ∈ s.cur := by
                rcases List.mem_append.mp hmem with hm | hm
                · exact hm
                · simp only [List.mem_singleton] at hm
                  exact absurd hm.symm hlineq
              rcases hZ1 hmem' with hc | hex
              · exact Or.inl (List.mem_append_left _ hc)
              · exact Or.inr hex
          · rw [if_neg hgap2]
            by_cases hcur : s.cur = []
            · rw [if_pos hcur]
              refine ⟨?_, by simp, hZ2⟩
              intro hpk
              rcases hW1 (by omega) with hc | hex
              · rw [hcur] at hc
                simp at hc
              · exact Or.inr hex
            · rw [if_neg hcur]
              refine ⟨?_, by simp, ?_⟩
              · intro hpk
                rcases hW1 (by omega) with hc | ⟨h, hh, hvh⟩
                · exact Or.inr ⟨s.cur, List.mem_append_right _ (by simp), hc⟩
                · exact Or.inr ⟨h, List.mem_append_left _ hh, hvh⟩
              · exact z2_extend _ _ _ _ hZ1 hZ2
    · rw [groupStep, if_pos (show (dl.getD k default).type ≠ DiffType.context from hline)]
      dsimp only
      have hctxB : ∀ l ∈ (List.filter (fun l => decide (l ∉ s.cur))
          (List.drop ((match s.last with | none => 0 | some L => L + 1) ⊔ (k - ctx))
            (List.take k dl))), l.type = DiffType.context :=
        fun l hl => mem_slice_context dl ctx k s hbase (List.mem_of_mem_filter hl)
      have hlinevq : dl.getD k default = dl.getD q default → k = q :=
        fun he => nodup_getD_inj dl hN (by omega) hq he
      refine ⟨?_, ?_, hZ2⟩
      · intro hpk
        by_cases hkp : k = p
        · subst hkp
          exact Or.inl (List.mem_append_right _ (by simp))
        · rcases hW1 (by omega) with hc | hex
          · exact Or.inl (List.mem_append_left _ (List.mem_append_left _ hc))
          · exact Or.inr hex
      · intro hmem
        rcases List.mem_append.mp hmem with hm | hm
        · rcases List.mem_append.mp hm with hm' | hm'
          · rcases hZ1 hm' with hc | hex
            · exact Or.inl (List.mem_append_left _ (List.mem_append_left _ hc))
            · exact Or.inr hex
          · exact absurd (hctxB _ hm') hqc
        · simp only [List.mem_singleton] at hm
          have hkq : k = q := hlinevq hm.symm
          rcases hW1 (by omega) with hc | hex
          · exact Or.inl (List.mem_append_left _ (List.mem_append_left _ hc))
          · exact Or.inr hex

/-- If an element belongs to the hunks at two distinct positions, the
membership count is at least two. -/
theorem countP_two_indices (l : List (List DiffLine)) (v : DiffLine) :
    ∀ {a b : Nat}, a < l.length → b < l.length → a ≠ b →
      v ∈ l.getD a [] → v ∈ l.getD b [] →
      2 ≤ l.countP (fun h => decide (v ∈ h)) := by
  induction l with
  | nil => intro a b ha _ _ _ _; simp at ha
  | cons x xs ih =>
      intro a b ha hb hab hva hvb
      rw [List.countP_cons]
      have hpos : ∀ c : Nat, c < xs.length → v ∈ xs.getD c [] →
          0 < xs.countP (fun h => decide (v ∈ h)) := by
        intro c hc hvc
        rw [List.countP_pos_iff]
        refine ⟨xs.getD c [], ?_, by simpa using hvc⟩
        rw [List.getD_eq_getElem _ _ hc]
        exact List.getElem_mem hc
      cases a with
      | zero =>
          cases b with
          | zero => exact absurd rfl hab
          | succ b =>
              have hx : v ∈ x := hva
              have h1 := hpos b (by simpa using hb) hvb
              simp only [hx, decide_eq_true_eq, if_pos]
              omega
      | succ a =>
          cases b with
          | zero =>
              have hx : v ∈ x := hvb
              have h1 := hpos a (by simpa using ha) hva
              simp only [hx, decide_eq_true_eq, if_pos]
              omega
          | succ b =>
              have h2 := ih (by simpa using ha) (by simpa using hb)
                (fun hc => hab (by omega)) hva hvb
              omega

/-- C2 counterexample: diffing `a b c d e f g` against `X b c d e f Y`
(changes at both ends, four unchanged lines between them) produces two
hunks that overlap — the context `DiffLine` for line `d` (old 4 / new 4)
belongs to both — refuting "no DiffLine belongs to two hunks" and, since
the hunks overlap, also the claimed separating run of unchanged lines. -/
theorem groupHunks_overlap_counterexample :
    (groupHunks (buildDiff (splitLines "a\nb\nc\nd\ne\nf\ng")
      (splitLines "X\nb\nc\nd\ne\nf\nY")) 3).length = 2 ∧
    (⟨DiffType.context, "d", some 4, some 4⟩ : DiffLine) ∈
      (groupHunks (buildDiff (splitLines "a\nb\nc\nd\ne\nf\ng")
        (splitLines "X\nb\nc\nd\ne\nf\nY")) 3).getD 0 [] ∧
    (⟨DiffType.context, "d", some 4, some 4⟩ : DiffLine) ∈
      (groupHunks (buildDiff (splitLines "a\nb\nc\nd\ne\nf\ng")
        (splitLines "X\nb\nc\nd\ne\nf\nY")) 3).getD 1 [] := by
  decide

/-- C2 (amended): for every pair of input texts the hunks partition the
**non-context** lines — each change line belongs to at most one hunk — and
hunks appear in ascending position order: a change line in an earlier hunk
has a smaller edit-script position than a change line in a later hunk.
(Context lines, by contrast, may be shared by two consecutive hunks, as
the counterexample shows, so the hunks are not disjoint as regions.) -/
theorem buildDiff_hunks_change_partition (oldText newText : String) :
    ∀ (dl : List DiffLine) (F : List (List DiffLine)),
      dl = buildDiff (splitLines oldText) (splitLines newText) →
      F = groupHunks dl 3 →
      (∀ p, p < dl.length → ¬ contextAt dl p →
        F.countP (fun h => decide (dl.getD p default ∈ h)) ≤ 1) ∧
      (∀ p q a b, p < q → q < dl.length →
        ¬ contextAt dl p → ¬ contextAt dl q →
        a < F.length → b < F.length →
        dl.getD p default ∈ F.getD a [] →
        dl.getD q default ∈ F.getD b [] → a ≤ b) := by
  intro dl F hdl hF
  subst hdl
  subst hF
  have hN := buildDiff_nodup (splitLines oldText) (splitLines newText)
  refine ⟨fun p hplen hp => groupHunks_change_once _ 3 hN hplen hp, ?_⟩
  intro p q a b hpq hq hp hqc ha hb hpa hqb
  by_contra hab
  push_neg at hab
  obtain ⟨m, hmb, hmlen, hvm⟩ :=
    groupHunks_precedes _ 3 hN hpq hq hp hqc b hb hqb
  have hma : m ≠ a := by omega
  have h2 := countP_two_indices _ _ hmlen ha hma hvm hpa
  have h1 := groupHunks_change_once _ 3 hN (by omega : p < _) hp
  omega

/-- Witness for C2 (amended) on the diff of `a b` against `x b`: the
removal (position 0) and the addition (position 1) each lie in exactly one
hunk, and their hunk positions are ordered. -/
theorem buildDiff_hunks_change_partition_witness :
    ((groupHunks (buildDiff (splitLines "a\nb") (splitLines "x\nb")) 3).countP
      (fun h => decide ((buildDiff (splitLines "a\nb") (splitLines "x\nb")).getD 0 default ∈ h)) ≤ 1) ∧
    (0 : Nat) ≤ 0 := by
  have h := buildDiff_hunks_change_partition "a\nb" "x\nb"
    (buildDiff (splitLines "a\nb") (splitLines "x\nb"))
    (groupHunks (buildDiff (splitLines "a\nb") (splitLines "x\nb")) 3) rfl rfl
  exact ⟨h.1 0 (by decide) (by decide),
    h.2 0 1 0 0 (by decide) (by decide) (by decide) (by decide)
      (by decide) (by decide) (by decide) (by decide)⟩

/-- C7: in the diff of any two texts with `contextLines = 3`, two
non-context lines whose separating run of unchanged lines is longer than
`contextLines` fall in different hunks, and two separated by at most
`contextLines` unchanged lines fall in the same hunk. -/
theorem buildDiff_hunk_gap_spec (oldText newText : String) :
    ∀ (dl : List DiffLine), dl = buildDiff (splitLines oldText) (splitLines newText) →
    ∀ p q, p < q → q < dl.length → ¬ contextAt dl p → ¬ contextAt dl q →
      (∀ k, p < k → k < q → contextAt dl k) →
      ((3 < q - p - 1 →
        ∀ h ∈ groupHunks dl 3, ¬ (dl.getD p default ∈ h ∧ dl.getD q default ∈ h)) ∧
       (q - p - 1 ≤ 3 →
        ∃ h ∈ groupHunks dl 3, dl.getD p default ∈ h ∧ dl.getD q default ∈ h)) := by
  intro dl hdl p q hpq hq hp hqc hbet
  subst hdl
  have hN := buildDiff_nodup (splitLines oldText) (splitLines newText)
  constructor
  · intro hg
    exact groupHunks_diff_hunk _ 3 hN hpq hq hp hqc hbet (by omega)
  · intro hg
    exact groupHunks_same_hunk _ 3 hpq hq hp hqc hbet (by omega)

/-- Witness for C7 on the diff of `a b` against `x b`: the removal and the
addition are adjacent (zero unchanged lines between them), so they share a
hunk. -/
theorem buildDiff_hunk_gap_spec_witness :
    ∃ h ∈ groupHunks (buildDiff (splitLines "a\nb") (splitLines "x\nb")) 3,
      (buildDiff (splitLines "a\nb") (splitLines "x\nb")).getD 0 default ∈ h ∧
      (buildDiff (splitLines "a\nb") (splitLines "x\nb")).getD 1 default ∈ h :=
  (buildDiff_hunk_gap_spec "a\nb" "x\nb"
      (buildDiff (splitLines "a\nb") (splitLines "x\nb")) rfl 0 1
      (by decide) (by decide) (by decide) (by decide)
      (fun k hk1 hk2 => absurd hk1 (by omega))).2 (by decide)

end ConfluenceReader
